import Mathlib

/-!
# fft-music: the chunked three-voice sequencer of `playMusic.c`

A shallow embedding of `playNote`, `playChord` and the body of `main` of
`src/playMusic.c`, with the enumerations of `src/note.h`.

Modelling conventions.

* `int` values are `Int`; every `int` operation that can leave the 32-bit range
  (`dur0 - 25`, `dur*freq`, `num0 + num1`, ...) goes through `wrapInt`, the
  two's-complement wrap-around.
* The position counters `i0`, `i1`, `i2` only ever grow from 0, so they are `Nat`;
  an `i0++` past `INT_MAX` would give a negative subscript, so `readNote` rejects
  every subscript that is not below `2^31`.
* A read outside a table is undefined behaviour in C; here it makes the step
  return `none`.
* `double` values are exact rationals (`ℚ`).
* The score tables of `bach.h`, `canon.h` and `sleigh.h` are a parameter (`Tables`).
* The pointers `note0`, `note1`, `note2` are always dereferenced right after being
  assigned, so only the notes read through them are kept.
-/

namespace FFTMusic

/-! ## note.h -/

/-- Rest pitch `R` of `enum pitch`. -/
abbrev R : Int := 0

/-- Concert pitch `A4` of `enum pitch`. -/
abbrev A4 : Int := 440

/-- Eighth note duration `E` of `enum dur`. -/
abbrev E : Int := 125

/-- Quarter note duration `Q` of `enum dur`. -/
abbrev Q : Int := 250

/-- Half note duration `H` of `enum dur`. -/
abbrev H : Int := 500

/-- Whole note duration `W` of `enum dur`. -/
abbrev W : Int := 1000

/-- End marker `DONE` of `enum dur`. -/
abbrev DONE : Int := 42

/-- The struct `note_t`: a frequency `p` and a duration `d`. -/
structure Note where
  p : Int
  d : Int
deriving DecidableEq, Repr

/-- The global `note_t rest = {R, W}`. -/
def rest : Note := ⟨R, W⟩

/-! ## Machine integers and table reads -/

/-- Two's-complement wrap-around of a 32-bit `int`. -/
def wrapInt (x : Int) : Int := (x + 2147483648) % 4294967296 - 2147483648

/-- Read of `tbl[i]`: `none` outside the array, and for a subscript that no
non-negative `int` represents. -/
def readNote (tbl : List Note) (i : Nat) : Option Note :=
  if i < 2147483648 then tbl[i]? else none

/-- The nine note arrays of the three music headers. -/
structure Tables where
  bach0 : List Note
  bach1 : List Note
  bach2 : List Note
  canon0 : List Note
  canon1 : List Note
  canon2 : List Note
  sleigh0 : List Note
  sleigh1 : List Note
  sleigh2 : List Note

/-! ## playNote and playChord -/

/-- Calls to the hardware libraries, in program order. -/
inductive Event where
  | myDigitalWrite (pin : Nat) (val : Nat)
  | delayMicros (us : Int)
  | gpioHardwarePWM (pin : Nat) (freq : Int) (duty : ℚ)
  | softToneWrite (pin : Nat) (freq : Int)
deriving DecidableEq

/-- The `for` loop of `playNote`: `n` square-wave periods. -/
def playCycles (delayTime : Int) : Nat → List Event
  | 0 => []
  | n + 1 =>
    Event.myDigitalWrite 4 1 :: Event.delayMicros delayTime ::
    Event.myDigitalWrite 4 0 :: Event.delayMicros delayTime :: playCycles delayTime n

/-- The function `playNote(freq, dur)`. -/
def playNote (freq dur : Int) : List Event :=
  if freq > 0 then
    let cycles := Int.tdiv (wrapInt (dur * freq)) 1000
    let delayTime := Int.tdiv 500000 freq
    playCycles delayTime cycles.toNat
  else
    [Event.delayMicros (wrapInt (dur * 1000))]

/-- The function `playChord(freq1, freq2, freq3)`. -/
def playChord (freq1 freq2 freq3 : Int) : List Event :=
  Event.gpioHardwarePWM 13 freq1 500000 :: Event.softToneWrite 23 freq2 :: playNote freq3 25

/-- Sum of the arguments of all `delayMicros` calls of a trace. -/
def totalDelay : List Event → Int
  | [] => 0
  | Event.delayMicros us :: es => us + totalDelay es
  | _ :: es => totalDelay es

/-! ## The state of `main` -/

/-- The local variables of `main` that live across loop iterations. -/
structure State where
  in0 : Int
  in1 : Int
  in2 : Int
  i0 : Nat
  i1 : Nat
  i2 : Nat
  num0 : Int
  num1 : Int
  num2 : Int
  copy0 : Note
  copy1 : Note
  copy2 : Note
deriving DecidableEq, Repr

/-- One sample of the three keypad pins (17, 27, 22). -/
structure Reads where
  r0 : Int
  r1 : Int
  r2 : Int
deriving DecidableEq, Repr

/-- The wait loop of lines 101-109: skip samples until one pin is non-zero. -/
def waitForInput : List Reads → Option (Reads × List Reads)
  | [] => none
  | r :: rs => if r.r0 = 0 ∧ r.r1 = 0 ∧ r.r2 = 0 then waitForInput rs else some (r, rs)

/-- Lines 111-145: the state built before the main loop from the sample that
ended the wait. With all pins low the note pointers would be uninitialised. -/
def startup (T : Tables) (r : Reads) : Option State :=
  (if r.r0 ≠ 0 then
    (readNote T.bach0 0).bind fun n0 => (readNote T.bach1 0).bind fun n1 =>
      (readNote T.bach2 0).map fun n2 => (n0, n1, n2)
  else if r.r1 ≠ 0 then
    (readNote T.canon0 0).bind fun n0 => (readNote T.canon1 0).bind fun n1 =>
      (readNote T.canon2 0).map fun n2 => (n0, n1, n2)
  else if r.r2 ≠ 0 then
    (readNote T.sleigh0 0).bind fun n0 => (readNote T.sleigh1 0).bind fun n1 =>
      (readNote T.sleigh2 0).map fun n2 => (n0, n1, n2)
  else none).map fun n =>
    { in0 := r.r0, in1 := r.r1, in2 := r.r2, i0 := 0, i1 := 0, i2 := 0,
      num0 := n.1.d, num1 := 0, num2 := 0, copy0 := n.1, copy1 := n.2.1, copy2 := n.2.2 }

/-! ## One iteration of the main loop -/

/-- Lines 160-164: the new remaining duration of one voice. -/
def decay (dur : Int) : Int := if dur ≠ DONE then wrapInt (dur - 25) else DONE

/-- Lines 166-175: the running average of durations. -/
def running_dur (s : State) : ℚ :=
  if s.i0 = 0 then (s.num0 : ℚ)
  else if s.i0 = 1 then ((wrapInt (s.num0 + s.num1) : Int) : ℚ) / 2
  else ((wrapInt (wrapInt (s.num0 + s.num1) + s.num2) : Int) : ℚ) / 3

/-- Line 178: the duty cycle computed from the running average. -/
def pwm_duty (avg : ℚ) : ℚ := (-0.0457 * avg + 70.7) * 10000

/-- What one iteration shows to the outside (lines 153-185): the printed
triples, the average, the duty cycle, and the hardware calls. -/
structure Output where
  i0 : Nat
  freq0 : Int
  dur0 : Int
  i1 : Nat
  freq1 : Int
  dur1 : Int
  i2 : Nat
  freq2 : Int
  dur2 : Int
  running_dur : ℚ
  pwm_duty : ℚ
  events : List Event
deriving DecidableEq

/-- Lines 153-185: the emission of one iteration, from the state at its start. -/
def emit (s : State) : Output :=
  { i0 := s.i0, freq0 := s.copy0.p, dur0 := s.copy0.d,
    i1 := s.i1, freq1 := s.copy1.p, dur1 := s.copy1.d,
    i2 := s.i2, freq2 := s.copy2.p, dur2 := s.copy2.d,
    running_dur := running_dur s,
    pwm_duty := pwm_duty (running_dur s),
    events := Event.gpioHardwarePWM 18 120 (pwm_duty (running_dur s)) ::
      playChord s.copy0.p s.copy1.p s.copy2.p }

/-- Lines 160-164: all three remaining durations are decremented. -/
def decrement (s : State) : State :=
  { s with copy0 := { s.copy0 with d := decay s.copy0.d },
           copy1 := { s.copy1 with d := decay s.copy1.d },
           copy2 := { s.copy2 with d := decay s.copy2.d } }

/-- Lines 188-224: the window update of voice 0, after `i0++`. -/
def updateWindow (T : Tables) (s : State) : Option State :=
  if s.i0 = 1 then
    if s.in0 ≠ 0 then (readNote T.bach0 s.i0).map fun n => { s with num1 := n.d }
    else if s.in1 ≠ 0 then (readNote T.canon0 s.i0).map fun n => { s with num1 := n.d }
    else if s.in2 ≠ 0 then (readNote T.sleigh0 s.i0).map fun n => { s with num1 := n.d }
    else some s
  else if s.i0 = 2 then
    if s.in0 ≠ 0 then (readNote T.bach0 s.i0).map fun n => { s with num2 := n.d }
    else if s.in1 ≠ 0 then (readNote T.canon0 s.i0).map fun n => { s with num2 := n.d }
    else if s.in2 ≠ 0 then (readNote T.sleigh0 s.i0).map fun n => { s with num2 := n.d }
    else some s
  else
    let s1 := { s with num0 := s.num1, num1 := s.num2 }
    if s1.in0 ≠ 0 then (readNote T.bach0 s1.i0).map fun n => { s1 with num2 := n.d }
    else if s1.in1 ≠ 0 then (readNote T.canon0 s1.i0).map fun n => { s1 with num2 := n.d }
    else if s1.in2 ≠ 0 then (readNote T.sleigh0 s1.i0).map fun n => { s1 with num2 := n.d }
    else some s1

/-- Lines 226-240: voice 0 loads the note at the new position. -/
def reload0 (T : Tables) (s : State) : Option State :=
  if s.in0 ≠ 0 then (readNote T.bach0 s.i0).map fun n => { s with copy0 := n }
  else if s.in1 ≠ 0 then (readNote T.canon0 s.i0).map fun n => { s with copy0 := n }
  else if s.in2 ≠ 0 then (readNote T.sleigh0 s.i0).map fun n => { s with copy0 := n }
  else some { s with i0 := 0, copy0 := rest }

/-- Lines 187-241: voice 0 advances when its pre-advance duration `dur0` is 25. -/
def advance0 (T : Tables) (dur0 : Int) (s : State) : Option State :=
  if dur0 = 25 then
    (updateWindow T { s with i0 := s.i0 + 1 }).bind (reload0 T)
  else some s

/-- Lines 243-260: voice 1 advances when its pre-advance duration `dur1` is 25. -/
def advance1 (T : Tables) (dur1 : Int) (s : State) : Option State :=
  if dur1 = 25 then
    if s.in0 ≠ 0 then (readNote T.bach1 (s.i1 + 1)).map fun n => { s with i1 := s.i1 + 1, copy1 := n }
    else if s.in1 ≠ 0 then
      (readNote T.canon1 (s.i1 + 1)).map fun n => { s with i1 := s.i1 + 1, copy1 := n }
    else if s.in2 ≠ 0 then
      (readNote T.sleigh1 (s.i1 + 1)).map fun n => { s with i1 := s.i1 + 1, copy1 := n }
    else some { s with i1 := 0, copy1 := rest }
  else some s

/-- Lines 261-278: voice 2 advances when its pre-advance duration `dur2` is 25. -/
def advance2 (T : Tables) (dur2 : Int) (s : State) : Option State :=
  if dur2 = 25 then
    if s.in0 ≠ 0 then (readNote T.bach2 (s.i2 + 1)).map fun n => { s with i2 := s.i2 + 1, copy2 := n }
    else if s.in1 ≠ 0 then
      (readNote T.canon2 (s.i2 + 1)).map fun n => { s with i2 := s.i2 + 1, copy2 := n }
    else if s.in2 ≠ 0 then
      (readNote T.sleigh2 (s.i2 + 1)).map fun n => { s with i2 := s.i2 + 1, copy2 := n }
    else some { s with i2 := 0, copy2 := rest }
  else some s

/-- Lines 153-278: the steady part of one iteration (decrement, then the three
advances), before the pins are sampled. -/
def steady (T : Tables) (s : State) : Option State :=
  ((advance0 T s.copy0.d (decrement s)).bind (advance1 T s.copy1.d)).bind (advance2 T s.copy2.d)

/-- Lines 280-328: the pins are sampled; on any change all positions, notes and
the window are reloaded; the sample is stored. -/
def readSwitches (T : Tables) (r : Reads) (s : State) : Option State :=
  if s.in0 ≠ r.r0 ∨ s.in1 ≠ r.r1 ∨ s.in2 ≠ r.r2 then
    (if r.r0 ≠ 0 then
      (readNote T.bach0 0).bind fun n0 => (readNote T.bach1 0).bind fun n1 =>
        (readNote T.bach2 0).map fun n2 => (n0, n1, n2)
    else if r.r1 ≠ 0 then
      (readNote T.canon0 0).bind fun n0 => (readNote T.canon1 0).bind fun n1 =>
        (readNote T.canon2 0).map fun n2 => (n0, n1, n2)
    else if r.r2 ≠ 0 then
      (readNote T.sleigh0 0).bind fun n0 => (readNote T.sleigh1 0).bind fun n1 =>
        (readNote T.sleigh2 0).map fun n2 => (n0, n1, n2)
    else some (rest, rest, rest)).map fun n =>
      { in0 := r.r0, in1 := r.r1, in2 := r.r2, i0 := 0, i1 := 0, i2 := 0,
        num0 := n.1.d, num1 := 0, num2 := 0, copy0 := n.1, copy1 := n.2.1, copy2 := n.2.2 }
  else some { s with in0 := r.r0, in1 := r.r1, in2 := r.r2 }

/-- One full iteration of `while (1)`: the state at the start of the next one. -/
def tick (T : Tables) (s : State) (r : Reads) : Option State :=
  (steady T s).bind (readSwitches T r)

/-- The loop run over a list of pin samples, one per iteration: the emissions. -/
def loop (T : Tables) : State → List Reads → Option (List Output)
  | _, [] => some []
  | s, r :: rs => (tick T s r).bind fun s1 => (loop T s1 rs).map fun os => emit s :: os

/-- The program `main` over a finite list of pin samples: wait, start, loop.
While the wait has not ended nothing is emitted. -/
def run (T : Tables) (rs : List Reads) : Option (List Output) :=
  match waitForInput rs with
  | none => some []
  | some (r, rs1) => (startup T r).bind fun s => loop T s rs1


/-! ## A per-voice view of the steady part -/

/-- The three voices. -/
inductive Voice where
  | v0
  | v1
  | v2
deriving DecidableEq, Repr

/-- The `if (in0) ... else if (in1) ... else if (in2) ...` choice among the tables
of one voice, by the stored sample; `none` when all three are zero. -/
def tableOf (a b c : List Note) (s : State) : Option (List Note) :=
  if s.in0 ≠ 0 then some a else if s.in1 ≠ 0 then some b else if s.in2 ≠ 0 then some c else none

/-- The table a voice reads in state `s`. -/
def voiceTable (T : Tables) (s : State) : Voice → Option (List Note)
  | Voice.v0 => tableOf T.bach0 T.canon0 T.sleigh0 s
  | Voice.v1 => tableOf T.bach1 T.canon1 T.sleigh1 s
  | Voice.v2 => tableOf T.bach2 T.canon2 T.sleigh2 s

/-- The position counter of a voice. -/
def State.idx (s : State) : Voice → Nat
  | Voice.v0 => s.i0
  | Voice.v1 => s.i1
  | Voice.v2 => s.i2

/-- The note copy (pitch and remaining duration) of a voice. -/
def State.copy (s : State) : Voice → Note
  | Voice.v0 => s.copy0
  | Voice.v1 => s.copy1
  | Voice.v2 => s.copy2

/-- The stored pin sample of a state. -/
def stored (s : State) : Reads := ⟨s.in0, s.in1, s.in2⟩

/-- One steady iteration seen from one voice: position and note copy afterwards. -/
def cursorStep (tbl : Option (List Note)) (i : Nat) (c : Note) : Option (Nat × Note) :=
  if c.d = 25 then
    match tbl with
    | some t => (readNote t (i + 1)).map fun n => (i + 1, n)
    | none => some (0, rest)
  else some (i, { c with d := decay c.d })

/-- One steady iteration seen from the window: `newd` is the duration of the note
voice 0 has just loaded, `playing` says whether a score is selected. -/
def windowStep (playing : Bool) (i0 : Nat) (dur0 newd : Int) (w : Int × Int × Int) :
    Int × Int × Int :=
  if dur0 = 25 then
    if i0 + 1 = 1 then (if playing then (w.1, newd, w.2.2) else w)
    else if i0 + 1 = 2 then (if playing then (w.1, w.2.1, newd) else w)
    else (w.2.1, w.2.2, if playing then newd else w.2.2)
  else w

/-- The loop run for `n` iterations in which the pins keep their stored values. -/
def steadyRun (T : Tables) : Nat → State → Option State
  | 0, s => some s
  | n + 1, s => (tick T s (stored s)).bind (steadyRun T n)

/-- A voice that cannot leave its table: when a score is selected, some entry at a
representable position `k` at or after the counter has duration `DONE`, and a
counter that has reached `k` holds `DONE`. -/
def VoiceSafe (tbl : Option (List Note)) (i : Nat) (c : Note) : Prop :=
  ∀ t, tbl = some t →
    ∃ k, i ≤ k ∧ k < 2147483648 ∧ (∃ n, t[k]? = some n ∧ n.d = DONE) ∧ (i = k → c.d = DONE)

/-- All three voices are safe. -/
def StateSafe (T : Tables) (s : State) : Prop :=
  ∀ v, VoiceSafe (voiceTable T s v) (s.idx v) (s.copy v)

/-- A note array that ends with the sentinel `{R, DONE}` and whose subscripts are
all representable. -/
def sentinelTerminated (tbl : List Note) : Prop :=
  tbl.getLast? = some ⟨R, DONE⟩ ∧ tbl.length ≤ 2147483648

/-- All nine arrays are sentinel-terminated. -/
def WellFormed (T : Tables) : Prop :=
  sentinelTerminated T.bach0 ∧ sentinelTerminated T.bach1 ∧ sentinelTerminated T.bach2 ∧
  sentinelTerminated T.canon0 ∧ sentinelTerminated T.canon1 ∧ sentinelTerminated T.canon2 ∧
  sentinelTerminated T.sleigh0 ∧ sentinelTerminated T.sleigh1 ∧ sentinelTerminated T.sleigh2

/-- All voices other than `v` are safe. -/
def SafeOff (T : Tables) (s : State) (v : Voice) : Prop :=
  ∀ w, w ≠ v → VoiceSafe (voiceTable T s w) (s.idx w) (s.copy w)

/-- The printed position of a voice. -/
def Output.idx (o : Output) : Voice → Nat
  | Voice.v0 => o.i0
  | Voice.v1 => o.i1
  | Voice.v2 => o.i2

/-- The emitted frequency of a voice. -/
def Output.freq (o : Output) : Voice → Int
  | Voice.v0 => o.freq0
  | Voice.v1 => o.freq1
  | Voice.v2 => o.freq2

/-- The printed (pre-advance) remaining duration of a voice. -/
def Output.dur (o : Output) : Voice → Int
  | Voice.v0 => o.dur0
  | Voice.v1 => o.dur1
  | Voice.v2 => o.dur2

/-- Example tables: voice 0 of the first score plays `A4` for a quarter, rests for
an eighth and ends; voice 0 of the second score plays a quarter, an eighth and a
half note; every other array holds only its sentinel. -/
def exampleTables : Tables :=
  { bach0 := [⟨A4, Q⟩, ⟨R, E⟩, ⟨R, DONE⟩], bach1 := [⟨R, DONE⟩], bach2 := [⟨R, DONE⟩],
    canon0 := [⟨A4, Q⟩, ⟨A4, E⟩, ⟨A4, H⟩, ⟨R, DONE⟩], canon1 := [⟨R, DONE⟩],
    canon2 := [⟨R, DONE⟩],
    sleigh0 := [⟨R, DONE⟩], sleigh1 := [⟨R, DONE⟩], sleigh2 := [⟨R, DONE⟩] }

/-- The example tables with other voice-1 and voice-2 arrays in every score. -/
def exampleTablesAlt : Tables :=
  { exampleTables with
    bach1 := [⟨A4, Q⟩, ⟨R, E⟩, ⟨R, DONE⟩], bach2 := [⟨A4, H⟩, ⟨R, DONE⟩],
    canon1 := [⟨A4, E⟩, ⟨R, DONE⟩], canon2 := [⟨A4, W⟩, ⟨R, DONE⟩],
    sleigh1 := [⟨A4, Q⟩, ⟨R, DONE⟩], sleigh2 := [⟨A4, E⟩, ⟨A4, E⟩, ⟨R, DONE⟩] }

/-- A short list of pin samples: wait, play the first score, switch to the second. -/
def exampleReads : List Reads :=
  [⟨0, 0, 0⟩, ⟨1, 0, 0⟩, ⟨1, 0, 0⟩, ⟨1, 0, 0⟩, ⟨0, 1, 0⟩, ⟨0, 1, 0⟩, ⟨0, 0, 0⟩, ⟨0, 0, 0⟩]

/-- The state `startup` builds on `exampleTables` when only the first pin is high. -/
def exampleStart : State :=
  { in0 := 1, in1 := 0, in2 := 0, i0 := 0, i1 := 0, i2 := 0, num0 := 250, num1 := 0, num2 := 0,
    copy0 := ⟨A4, Q⟩, copy1 := ⟨R, DONE⟩, copy2 := ⟨R, DONE⟩ }

/-- The state `startup` builds on `exampleTables` when only the second pin is high. -/
def exampleStartB : State :=
  { in0 := 0, in1 := 1, in2 := 0, i0 := 0, i1 := 0, i2 := 0, num0 := 250, num1 := 0, num2 := 0,
    copy0 := ⟨A4, Q⟩, copy1 := ⟨R, DONE⟩, copy2 := ⟨R, DONE⟩ }

/-- The state after a fresh selection: the sample `r` is stored, all positions are
0, the three notes `n0`, `n1`, `n2` are loaded in full and the window is seeded with
the duration of `n0`. -/
def freshState (r : Reads) (n0 n1 n2 : Note) : State :=
  { in0 := r.r0, in1 := r.r1, in2 := r.r2, i0 := 0, i1 := 0, i2 := 0,
    num0 := n0.d, num1 := 0, num2 := 0, copy0 := n0, copy1 := n1, copy2 := n2 }

/-- The idle state: no pin high, all positions 0, the window `(1000, 0, 0)`, and the
rest note with `d` left in all three voices. -/
def idleState (d : Int) : State :=
  { in0 := 0, in1 := 0, in2 := 0, i0 := 0, i1 := 0, i2 := 0, num0 := 1000, num1 := 0, num2 := 0,
    copy0 := ⟨R, d⟩, copy1 := ⟨R, d⟩, copy2 := ⟨R, d⟩ }

/-- Two states with the same stored pins, the same voice-0 cursor and the same
window. -/
def SameVoice0 (s u : State) : Prop :=
  stored u = stored s ∧ u.i0 = s.i0 ∧ u.copy0 = s.copy0 ∧
    u.num0 = s.num0 ∧ u.num1 = s.num1 ∧ u.num2 = s.num2

/-- The selection a pin sample stands for. -/
inductive Selection where
  | None
  | ScoreA
  | ScoreB
  | ScoreC
deriving DecidableEq, Repr

/-- The priority chain `if (in0) ... else if (in1) ... else if (in2) ... else ...`. -/
def selection (r : Reads) : Selection :=
  if r.r0 ≠ 0 then Selection.ScoreA
  else if r.r1 ≠ 0 then Selection.ScoreB
  else if r.r2 ≠ 0 then Selection.ScoreC
  else Selection.None

/-- The three arrays (voice 0, 1, 2) of a selected score. -/
def scoreOf (T : Tables) : Selection → Option (List Note × List Note × List Note)
  | Selection.None => none
  | Selection.ScoreA => some (T.bach0, T.bach1, T.bach2)
  | Selection.ScoreB => some (T.canon0, T.canon1, T.canon2)
  | Selection.ScoreC => some (T.sleigh0, T.sleigh1, T.sleigh2)

/-- The array of one voice in a triple of arrays. -/
def voiceOf (x : List Note × List Note × List Note) : Voice → List Note
  | Voice.v0 => x.1
  | Voice.v1 => x.2.1
  | Voice.v2 => x.2.2

/-- The states `main` can be in at the start of an iteration. -/
inductive Reachable (T : Tables) : State → Prop where
  | start (r : Reads) (s : State) : startup T r = some s → Reachable T s
  | step (s : State) (r : Reads) (t : State) : Reachable T s → tick T s r = some t → Reachable T t

/-- The duration field of entry `k` of an array, when that entry can be read. -/
def durAt (tbl : List Note) (k : Nat) : Option Int := (readNote tbl k).map fun n => n.d

/-- A value an `int` can hold. -/
def inIntRange (x : Int) : Prop := -2147483648 ≤ x ∧ x < 2147483648

/-- The window holds the durations of the last entries voice 0 has loaded from the
array `a`: one entry at position 0, two at position 1, and the three entries
`i0 - 2`, `i0 - 1`, `i0` from position 2 on. -/
def WindowFifo (a : List Note) (s : State) : Prop :=
  (s.i0 = 0 → durAt a 0 = some s.num0) ∧
  (s.i0 = 1 → durAt a 0 = some s.num0 ∧ durAt a 1 = some s.num1) ∧
  (2 ≤ s.i0 → durAt a (s.i0 - 2) = some s.num0 ∧ durAt a (s.i0 - 1) = some s.num1 ∧
    durAt a s.i0 = some s.num2)

/-- The state on `exampleTables` after the second score has played 15 iterations. -/
def exampleMid : State :=
  { in0 := 0, in1 := 1, in2 := 0, i0 := 2, i1 := 0, i2 := 0, num0 := 250, num1 := 125,
    num2 := 500, copy0 := ⟨A4, H⟩, copy1 := ⟨R, DONE⟩, copy2 := ⟨R, DONE⟩ }

/-- A well-formed duration: `DONE`, or a positive multiple of the 25 ms quantum
that an `int` can hold. -/
def GoodDur (d : Int) : Prop := d = DONE ∨ (0 < d ∧ 25 ∣ d ∧ d < 2147483648)

/-- Every duration of an array is well-formed. -/
def GoodTable (tbl : List Note) : Prop := ∀ n ∈ tbl, GoodDur n.d

/-- Every duration of every array is well-formed. -/
def GoodDurations (T : Tables) : Prop :=
  GoodTable T.bach0 ∧ GoodTable T.bach1 ∧ GoodTable T.bach2 ∧
  GoodTable T.canon0 ∧ GoodTable T.canon1 ∧ GoodTable T.canon2 ∧
  GoodTable T.sleigh0 ∧ GoodTable T.sleigh1 ∧ GoodTable T.sleigh2

/-- A note array whose last note has duration `DONE` and whose subscripts are all
representable. -/
def doneTerminated (tbl : List Note) : Prop :=
  (tbl.getLast?.map fun n => n.d) = some DONE ∧ tbl.length ≤ 2147483648

/-- All nine arrays are terminated by a note of duration `DONE`. -/
def Terminated (T : Tables) : Prop :=
  doneTerminated T.bach0 ∧ doneTerminated T.bach1 ∧ doneTerminated T.bach2 ∧
  doneTerminated T.canon0 ∧ doneTerminated T.canon1 ∧ doneTerminated T.canon2 ∧
  doneTerminated T.sleigh0 ∧ doneTerminated T.sleigh1 ∧ doneTerminated T.sleigh2

/-- The position of the first note of duration `DONE` (the length when there is
none). -/
def firstDone (tbl : List Note) : Nat := tbl.findIdx fun n => decide (n.d = DONE)

/-- A voice that stays inside its array: its position is at most that of the first
`DONE` note, which exists at a representable position, and a voice that has reached
it holds `DONE`. -/
def WithinTable (tbl : List Note) (i : Nat) (c : Note) : Prop :=
  i ≤ firstDone tbl ∧ firstDone tbl < tbl.length ∧ firstDone tbl < 2147483648 ∧
    (i = firstDone tbl → c.d = DONE)

/-- Every voice stays inside the array it reads. -/
def AllWithin (T : Tables) (s : State) : Prop :=
  ∀ v tbl, voiceTable T s v = some tbl → WithinTable tbl (s.idx v) (s.copy v)

/-- The state on `exampleTables` after the first score has played 14 iterations:
voice 0 is at position 1 with 25 left, one iteration before it loads its sentinel. -/
def exampleLast : State :=
  { in0 := 1, in1 := 0, in2 := 0, i0 := 1, i1 := 0, i2 := 0, num0 := 250, num1 := 125,
    num2 := 0, copy0 := ⟨R, 25⟩, copy1 := ⟨R, DONE⟩, copy2 := ⟨R, DONE⟩ }

/-- Every duration of an array lies between 0 and 1000. -/
def BoundedTable (tbl : List Note) : Prop := ∀ n ∈ tbl, 0 ≤ n.d ∧ n.d ≤ 1000

/-- Every duration of every array lies between 0 and 1000. -/
def BoundedDurations (T : Tables) : Prop :=
  BoundedTable T.bach0 ∧ BoundedTable T.bach1 ∧ BoundedTable T.bach2 ∧
  BoundedTable T.canon0 ∧ BoundedTable T.canon1 ∧ BoundedTable T.canon2 ∧
  BoundedTable T.sleigh0 ∧ BoundedTable T.sleigh1 ∧ BoundedTable T.sleigh2

/-- All three window entries lie between 0 and 1000. -/
def WindowBounded (s : State) : Prop :=
  (0 ≤ s.num0 ∧ s.num0 ≤ 1000) ∧ (0 ≤ s.num1 ∧ s.num1 ≤ 1000) ∧ (0 ≤ s.num2 ∧ s.num2 ≤ 1000)

/-- Lines 160-164 over unbounded integers: the decrement without wrap-around. -/
def decayZ (dur : Int) : Int := if dur ≠ DONE then dur - 25 else DONE

/-- One steady iteration seen from one voice, over unbounded integers: `cursorStep`
with the decrement of `decayZ`. -/
def cursorStepZ (tbl : Option (List Note)) (i : Nat) (c : Note) : Option (Nat × Note) :=
  if c.d = 25 then
    match tbl with
    | some t => (readNote t (i + 1)).map fun n => (i + 1, n)
    | none => some (0, rest)
  else some (i, { c with d := decayZ c.d })

/-- The cursor of one voice after `n` steady iterations, over unbounded integers. -/
def cursorRunZ (tbl : Option (List Note)) : Nat → Nat × Note → Option (Nat × Note)
  | 0, x => some x
  | n + 1, x => (cursorStepZ tbl x.1 x.2).bind (cursorRunZ tbl n)

/-- The remaining duration `n` iterations after a malformed duration `d` was loaded:
a `d` of the form `42 + 25 k` comes down to `DONE` and stays there, any other `d`
loses 25 per iteration. -/
def stalled (d : Int) (n : Nat) : Int :=
  if 42 ≤ d ∧ (d - 42) % 25 = 0 ∧ d - 42 ≤ 25 * (n : Int) then DONE else d - 25 * (n : Int)

/-- The state on `exampleTables` with a malformed remaining duration of 30 in
voice 0. -/
def exampleBad : State := { exampleStart with copy0 := ⟨A4, 30⟩ }

/-! ## The per-voice view is the steady part -/

theorem advance0_eq (T : Tables) (s : State) :
    advance0 T s.copy0.d (decrement s) =
      (cursorStep (voiceTable T s Voice.v0) s.i0 s.copy0).map fun c0 =>
        let w := windowStep (voiceTable T s Voice.v0).isSome s.i0 s.copy0.d c0.2.d
          (s.num0, s.num1, s.num2)
        { decrement s with i0 := c0.1, copy0 := c0.2, num0 := w.1, num1 := w.2.1, num2 := w.2.2 } := by
  rcases s with ⟨in0, in1, in2, i0, i1, i2, n0, n1, n2, c0, c1, c2⟩
  simp only [advance0, updateWindow, reload0, decrement, cursorStep, windowStep, voiceTable,
    tableOf]
  by_cases h0 : c0.d = 25
  · obtain rfl | rfl | h3 : i0 = 0 ∨ i0 = 1 ∨ 2 ≤ i0 := by omega
    · by_cases a : in0 = 0 <;> by_cases b : in1 = 0 <;> by_cases c : in2 = 0 <;>
      simp [h0, a, b, c] <;>
      (first
        | (cases hr : readNote T.bach0 1 <;> simp [a, b, c, hr])
        | (cases hr : readNote T.canon0 1 <;> simp [a, b, c, hr])
        | (cases hr : readNote T.sleigh0 1 <;> simp [a, b, c, hr]))
    · by_cases a : in0 = 0 <;> by_cases b : in1 = 0 <;> by_cases c : in2 = 0 <;>
      simp [h0, a, b, c] <;>
      (first
        | (cases hr : readNote T.bach0 2 <;> simp [a, b, c, hr])
        | (cases hr : readNote T.canon0 2 <;> simp [a, b, c, hr])
        | (cases hr : readNote T.sleigh0 2 <;> simp [a, b, c, hr]))
    · have e1 : i0 ≠ 0 := by omega
      have e2 : i0 ≠ 1 := by omega
      by_cases a : in0 = 0 <;> by_cases b : in1 = 0 <;> by_cases c : in2 = 0 <;>
      simp [h0, a, b, c, e1, e2] <;>
      (first
        | (cases hr : readNote T.bach0 (i0 + 1) <;> simp [a, b, c, hr])
        | (cases hr : readNote T.canon0 (i0 + 1) <;> simp [a, b, c, hr])
        | (cases hr : readNote T.sleigh0 (i0 + 1) <;> simp [a, b, c, hr]))
  · simp [h0]

theorem advance1_eq (T : Tables) (d : Int) (s : State) :
    advance1 T d s =
      if d = 25 then
        match voiceTable T s Voice.v1 with
        | some t => (readNote t (s.i1 + 1)).map fun n => { s with i1 := s.i1 + 1, copy1 := n }
        | none => some { s with i1 := 0, copy1 := rest }
      else some s := by
  simp only [advance1, voiceTable, tableOf]
  by_cases h : d = 25 <;> by_cases a : s.in0 = 0 <;> by_cases b : s.in1 = 0 <;>
    by_cases c : s.in2 = 0 <;> simp [h, a, b, c]

theorem advance2_eq (T : Tables) (d : Int) (s : State) :
    advance2 T d s =
      if d = 25 then
        match voiceTable T s Voice.v2 with
        | some t => (readNote t (s.i2 + 1)).map fun n => { s with i2 := s.i2 + 1, copy2 := n }
        | none => some { s with i2 := 0, copy2 := rest }
      else some s := by
  simp only [advance2, voiceTable, tableOf]
  by_cases h : d = 25 <;> by_cases a : s.in0 = 0 <;> by_cases b : s.in1 = 0 <;>
    by_cases c : s.in2 = 0 <;> simp [h, a, b, c]

theorem voiceTable_congr (T : Tables) {s u : State} (h0 : u.in0 = s.in0) (h1 : u.in1 = s.in1)
    (h2 : u.in2 = s.in2) (v : Voice) : voiceTable T u v = voiceTable T s v := by
  cases v <;> simp [voiceTable, tableOf, h0, h1, h2]

theorem advance1_decayed (T : Tables) (s u : State) (h0 : u.in0 = s.in0) (h1 : u.in1 = s.in1)
    (h2 : u.in2 = s.in2) (hi : u.i1 = s.i1)
    (hu : u.copy1 = { s.copy1 with d := decay s.copy1.d }) :
    advance1 T s.copy1.d u =
      (cursorStep (voiceTable T s Voice.v1) s.i1 s.copy1).map fun x =>
        { u with i1 := x.1, copy1 := x.2 } := by
  rw [advance1_eq, voiceTable_congr T h0 h1 h2, hi]
  unfold cursorStep
  by_cases h : s.copy1.d = 25
  · cases voiceTable T s Voice.v1 with
    | none => simp [h]
    | some t => simp only [h, if_true, Option.map_map]; rfl
  · simp [h, ← hu, ← hi]

theorem advance2_decayed (T : Tables) (s u : State) (h0 : u.in0 = s.in0) (h1 : u.in1 = s.in1)
    (h2 : u.in2 = s.in2) (hi : u.i2 = s.i2)
    (hu : u.copy2 = { s.copy2 with d := decay s.copy2.d }) :
    advance2 T s.copy2.d u =
      (cursorStep (voiceTable T s Voice.v2) s.i2 s.copy2).map fun x =>
        { u with i2 := x.1, copy2 := x.2 } := by
  rw [advance2_eq, voiceTable_congr T h0 h1 h2, hi]
  unfold cursorStep
  by_cases h : s.copy2.d = 25
  · cases voiceTable T s Voice.v2 with
    | none => simp [h]
    | some t => simp only [h, if_true, Option.map_map]; rfl
  · simp [h, ← hu, ← hi]

theorem steady_eq (T : Tables) (s : State) :
    steady T s =
      (cursorStep (voiceTable T s Voice.v0) s.i0 s.copy0).bind fun c0 =>
      (cursorStep (voiceTable T s Voice.v1) s.i1 s.copy1).bind fun c1 =>
      (cursorStep (voiceTable T s Voice.v2) s.i2 s.copy2).map fun c2 =>
        { in0 := s.in0, in1 := s.in1, in2 := s.in2, i0 := c0.1, i1 := c1.1, i2 := c2.1,
          num0 := (windowStep (voiceTable T s Voice.v0).isSome s.i0 s.copy0.d c0.2.d
            (s.num0, s.num1, s.num2)).1,
          num1 := (windowStep (voiceTable T s Voice.v0).isSome s.i0 s.copy0.d c0.2.d
            (s.num0, s.num1, s.num2)).2.1,
          num2 := (windowStep (voiceTable T s Voice.v0).isSome s.i0 s.copy0.d c0.2.d
            (s.num0, s.num1, s.num2)).2.2,
          copy0 := c0.2, copy1 := c1.2, copy2 := c2.2 } := by
  unfold steady
  rw [advance0_eq]
  cases hc0 : cursorStep (voiceTable T s Voice.v0) s.i0 s.copy0 with
  | none => simp
  | some c0 =>
    simp only [Option.map_some', Option.some_bind]
    rw [advance1_decayed T s]
    rotate_left
    · rfl
    · rfl
    · rfl
    · rfl
    · rfl
    cases hc1 : cursorStep (voiceTable T s Voice.v1) s.i1 s.copy1 with
    | none => simp
    | some c1 =>
      simp only [Option.map_some', Option.some_bind]
      rw [advance2_decayed T s]
      rotate_left
      · rfl
      · rfl
      · rfl
      · rfl
      · rfl
      rfl

/-! ## Consequences of the per-voice view -/

theorem steady_voice {T : Tables} {s t : State} (h : steady T s = some t) (v : Voice) :
    cursorStep (voiceTable T s v) (s.idx v) (s.copy v) = some (t.idx v, t.copy v) := by
  rw [steady_eq] at h
  simp only [Option.bind_eq_some, Option.map_eq_some'] at h
  obtain ⟨c0, h0, c1, h1, c2, h2, rfl⟩ := h
  cases v
  · exact h0
  · exact h1
  · exact h2

theorem steady_stored {T : Tables} {s t : State} (h : steady T s = some t) :
    t.in0 = s.in0 ∧ t.in1 = s.in1 ∧ t.in2 = s.in2 := by
  rw [steady_eq] at h
  simp only [Option.bind_eq_some, Option.map_eq_some'] at h
  obtain ⟨c0, h0, c1, h1, c2, h2, rfl⟩ := h
  exact ⟨rfl, rfl, rfl⟩

theorem steady_window {T : Tables} {s t : State} (h : steady T s = some t) :
    (t.num0, t.num1, t.num2) =
      windowStep (voiceTable T s Voice.v0).isSome s.i0 s.copy0.d t.copy0.d
        (s.num0, s.num1, s.num2) := by
  rw [steady_eq] at h
  simp only [Option.bind_eq_some, Option.map_eq_some'] at h
  obtain ⟨c0, h0, c1, h1, c2, h2, rfl⟩ := h
  rfl

theorem steady_defined {T : Tables} {s : State}
    (h : ∀ v, ∃ x, cursorStep (voiceTable T s v) (s.idx v) (s.copy v) = some x) :
    ∃ t, steady T s = some t := by
  obtain ⟨x0, h0⟩ := h Voice.v0
  obtain ⟨x1, h1⟩ := h Voice.v1
  obtain ⟨x2, h2⟩ := h Voice.v2
  simp only [State.idx, State.copy] at h0 h1 h2
  rw [steady_eq, h0, h1, h2]
  exact ⟨_, rfl⟩

theorem voiceTable_steady {T : Tables} {s t : State} (h : steady T s = some t) (v : Voice) :
    voiceTable T t v = voiceTable T s v := by
  obtain ⟨h0, h1, h2⟩ := steady_stored h
  exact voiceTable_congr T h0 h1 h2 v

/-- With the stored sample read again, an iteration is its steady part. -/
theorem tick_stored (T : Tables) (s : State) : tick T s (stored s) = steady T s := by
  unfold tick
  cases h : steady T s with
  | none => rfl
  | some t =>
    obtain ⟨h0, h1, h2⟩ := steady_stored h
    cases t
    simp only at h0 h1 h2
    subst h0 h1 h2
    simp [readSwitches, stored]

/-! ## Safe states never leave their tables -/

theorem cursorStep_safe {tbl : Option (List Note)} {i : Nat} {c : Note}
    (h : VoiceSafe tbl i c) : ∃ x, cursorStep tbl i c = some x ∧ VoiceSafe tbl x.1 x.2 := by
  unfold cursorStep
  by_cases hd : c.d = 25
  · cases tbl with
    | none => exact ⟨(0, rest), by simp [hd], by intro t ht; cases ht⟩
    | some t =>
      obtain ⟨k, hik, hk, ⟨n, hn, hnd⟩, hend⟩ := h t rfl
      have hne : i ≠ k := by
        intro e
        have := hend e
        rw [hd] at this
        exact absurd this (by decide)
      have hlt : i + 1 ≤ k := by omega
      have hklen : k < t.length := by
        rcases List.getElem?_eq_some.mp hn with ⟨hl, _⟩
        exact hl
      have hilen : i + 1 < t.length := by omega
      refine ⟨(i + 1, t[i + 1]), ?_, ?_⟩
      · have hr : readNote t (i + 1) = some t[i + 1] := by
          unfold readNote
          rw [if_pos (by omega), List.getElem?_eq_getElem hilen]
        simp [hd, hr]
      · intro t1 ht1
        cases ht1
        refine ⟨k, hlt, hk, ⟨n, hn, hnd⟩, ?_⟩
        intro e
        have e1 : i + 1 = k := e
        have h2 : t[i + 1]? = some n := by rw [← hn, e1]
        rw [List.getElem?_eq_getElem hilen] at h2
        simp only [Option.some.injEq] at h2
        simp only [h2, hnd]
  · refine ⟨(i, { c with d := decay c.d }), by simp [hd], ?_⟩
    intro t ht
    obtain ⟨k, hik, hk, hn, hend⟩ := h t ht
    refine ⟨k, hik, hk, hn, ?_⟩
    intro e
    simp [decay, hend e]

theorem steady_safe {T : Tables} {s : State} (h : StateSafe T s) :
    ∃ t, steady T s = some t ∧ StateSafe T t := by
  obtain ⟨t, ht⟩ := steady_defined (T := T) (s := s) fun v => by
    obtain ⟨x, hx, _⟩ := cursorStep_safe (h v)
    exact ⟨x, hx⟩
  refine ⟨t, ht, ?_⟩
  intro v
  obtain ⟨x, hx, hsafe⟩ := cursorStep_safe (h v)
  rw [steady_voice ht v] at hx
  cases hx
  rw [voiceTable_steady ht v]
  exact hsafe

theorem stored_steady {T : Tables} {s t : State} (h : steady T s = some t) :
    stored t = stored s := by
  obtain ⟨h0, h1, h2⟩ := steady_stored h
  simp [stored, h0, h1, h2]

theorem steadyRun_succ (T : Tables) (n : Nat) (s : State) :
    steadyRun T (n + 1) s = (steady T s).bind (steadyRun T n) := by
  simp [steadyRun, tick_stored]

theorem steadyRun_succ_right (T : Tables) (n : Nat) (s : State) :
    steadyRun T (n + 1) s = (steadyRun T n s).bind (steady T) := by
  induction n generalizing s with
  | zero => simp [steadyRun, tick_stored]
  | succ n ih =>
    rw [steadyRun_succ T (n + 1), steadyRun_succ T n]
    cases h : steady T s with
    | none => rfl
    | some u => simpa using ih u

theorem steadyRun_safe {T : Tables} (n : Nat) {s : State} (h : StateSafe T s) :
    ∃ t, steadyRun T n s = some t ∧ StateSafe T t := by
  induction n generalizing s with
  | zero => exact ⟨s, rfl, h⟩
  | succ n ih =>
    obtain ⟨u, hu, hsafe⟩ := steady_safe h
    obtain ⟨t, ht, htsafe⟩ := ih hsafe
    exact ⟨t, by rw [steadyRun_succ, hu]; exact ht, htsafe⟩

/-! ## Counting a note down, and rolling over -/

theorem wrapInt_of_range {x : Int} (h1 : -2147483648 ≤ x) (h2 : x < 2147483648) :
    wrapInt x = x := by
  unfold wrapInt
  omega

theorem decay_of_range {d : Int} (h0 : d ≠ DONE) (h1 : -2147483623 ≤ d) (h2 : d < 2147483648) :
    decay d = d - 25 := by
  unfold decay
  rw [if_pos h0, wrapInt_of_range (by omega) (by omega)]

theorem emit_idx (s : State) (v : Voice) : (emit s).idx v = s.idx v := by
  cases v <;> rfl

theorem emit_freq (s : State) (v : Voice) : (emit s).freq v = (s.copy v).p := by
  cases v <;> rfl

theorem emit_dur (s : State) (v : Voice) : (emit s).dur v = (s.copy v).d := by
  cases v <;> rfl

/-- One steady iteration, followed from one voice whose step is known while the
other voices are safe. -/
theorem steady_follow {T : Tables} {s : State} {v : Voice} {x : Nat × Note}
    (hoff : SafeOff T s v)
    (hx : cursorStep (voiceTable T s v) (s.idx v) (s.copy v) = some x) :
    ∃ t, steady T s = some t ∧ SafeOff T t v ∧ stored t = stored s ∧
      t.idx v = x.1 ∧ t.copy v = x.2 ∧
      (t.num0, t.num1, t.num2) =
        windowStep (voiceTable T s Voice.v0).isSome s.i0 s.copy0.d t.copy0.d
          (s.num0, s.num1, s.num2) := by
  obtain ⟨t, ht⟩ := steady_defined (T := T) (s := s) fun w => by
    by_cases hw : w = v
    · subst hw
      exact ⟨x, hx⟩
    · obtain ⟨y, hy, _⟩ := cursorStep_safe (hoff w hw)
      exact ⟨y, hy⟩
  refine ⟨t, ht, ?_, stored_steady ht, ?_, ?_, steady_window ht⟩
  · intro w hw
    obtain ⟨y, hy, hsafe⟩ := cursorStep_safe (hoff w hw)
    rw [steady_voice ht w] at hy
    cases hy
    rw [voiceTable_steady ht w]
    exact hsafe
  · have := steady_voice ht v
    rw [hx] at this
    cases this
    rfl
  · have := steady_voice ht v
    rw [hx] at this
    cases this
    rfl

theorem voiceTable_stored (T : Tables) {s t : State} (h : stored t = stored s) (v : Voice) :
    voiceTable T t v = voiceTable T s v := by
  simp only [stored, Reads.mk.injEq] at h
  exact voiceTable_congr T h.1 h.2.1 h.2.2 v

/-- A note with `25 * m` left is counted down for `j < m` iterations: the position
stays, the pitch stays, `25 * (m - j)` is left; the window stays when the voice is
voice 0. -/
theorem countdown {T : Tables} {v : Voice} (p : Int) (m : Nat) (hm : m ≤ 40000000) :
    ∀ (j : Nat) (s : State), j < m → SafeOff T s v → s.copy v = ⟨p, 25 * (m : Int)⟩ →
      ∃ t, steadyRun T j s = some t ∧ SafeOff T t v ∧ stored t = stored s ∧
        t.idx v = s.idx v ∧ t.copy v = ⟨p, 25 * ((m : Int) - j)⟩ ∧
        (v = Voice.v0 → t.num0 = s.num0 ∧ t.num1 = s.num1 ∧ t.num2 = s.num2) := by
  intro j
  induction j with
  | zero =>
    intro s _ hoff hc
    exact ⟨s, rfl, hoff, rfl, rfl, by simpa using hc, fun _ => ⟨rfl, rfl, rfl⟩⟩
  | succ j ih =>
    intro s hj hoff hc
    obtain ⟨t, ht, htoff, hst, hidx, hcopy, hwin⟩ := ih s (by omega) hoff hc
    have hne : (25 * ((m : Int) - j)) ≠ 25 := by omega
    have hx : cursorStep (voiceTable T t v) (t.idx v) (t.copy v) =
        some (t.idx v, ⟨p, 25 * ((m : Int) - (j + 1 : Nat))⟩) := by
      unfold cursorStep
      rw [hcopy]
      simp only [hne, if_false]
      rw [decay_of_range (by simp only [DONE]; omega) (by omega) (by omega)]
      congr 3
      push_cast
      ring
    obtain ⟨u, hu, huoff, hust, huidx, hucopy, huwin⟩ := steady_follow htoff hx
    refine ⟨u, ?_, huoff, by rw [hust, hst], by rw [huidx]; exact hidx, hucopy, ?_⟩
    · rw [steadyRun_succ_right, ht]
      exact hu
    · intro hv
      subst hv
      have h25 : t.copy0.d ≠ 25 := by
        have : t.copy0 = ⟨p, 25 * ((m : Int) - j)⟩ := hcopy
        rw [this]
        exact hne
      simp only [windowStep, h25, if_false, Prod.mk.injEq] at huwin
      obtain ⟨a, b, c⟩ := hwin rfl
      exact ⟨by rw [huwin.1, a], by rw [huwin.2.1, b], by rw [huwin.2.2, c]⟩

theorem steadyRun_add (T : Tables) (a b : Nat) (s : State) :
    steadyRun T (a + b) s = (steadyRun T a s).bind (steadyRun T b) := by
  induction b with
  | zero => simp [steadyRun]
  | succ b ih =>
    rw [← Nat.add_assoc, steadyRun_succ_right, ih]
    cases h : steadyRun T a s with
    | none => rfl
    | some u => simp [steadyRun_succ_right]

/-- A voice with 25 left and a score selected loads the next entry of its table. -/
theorem rollover {T : Tables} {s : State} {v : Voice} {tbl : List Note} {n : Note}
    (hoff : SafeOff T s v) (hsel : voiceTable T s v = some tbl) (hd : (s.copy v).d = 25)
    (hnext : readNote tbl (s.idx v + 1) = some n) :
    ∃ t, steady T s = some t ∧ SafeOff T t v ∧ stored t = stored s ∧
      t.idx v = s.idx v + 1 ∧ t.copy v = n ∧
      (t.num0, t.num1, t.num2) =
        windowStep (voiceTable T s Voice.v0).isSome s.i0 s.copy0.d t.copy0.d
          (s.num0, s.num1, s.num2) := by
  have hx : cursorStep (voiceTable T s v) (s.idx v) (s.copy v) = some (s.idx v + 1, n) := by
    simp [cursorStep, hd, hsel, hnext]
  exact steady_follow hoff hx

theorem voiceSafe_at_done {tbl : List Note} {i : Nat} {c : Note} (hi : i < 2147483648)
    (hc : tbl[i]? = some c) (hd : c.d = DONE) : VoiceSafe (some tbl) i c := by
  intro t ht
  cases ht
  exact ⟨i, le_refl i, hi, ⟨c, hc, hd⟩, fun _ => hd⟩

theorem exampleStart_safe : StateSafe exampleTables exampleStart := by
  intro v
  cases v
  · intro t ht
    simp only [voiceTable, tableOf, exampleStart, exampleTables] at ht
    cases ht
    exact ⟨2, by decide, by decide, ⟨⟨R, DONE⟩, rfl, rfl⟩, by decide⟩
  · exact voiceSafe_at_done (by decide) rfl rfl
  · exact voiceSafe_at_done (by decide) rfl rfl

/-! ## C1: boundary exactness -/

/-- C1. For every voice `v` whose cursor holds a note with 250 left while a score is
selected (its table `tbl` has an entry `n` after the current position, and the other
voices are safe): with the pins unchanged, the iterations 1..10 emit the note with
pre-advance remaining 250, 225, ..., 25 at the unchanged position, and the 10th
iteration moves the position on by exactly one and loads `n`. -/
theorem boundary_exactness (T : Tables) (s : State) (v : Voice) (tbl : List Note) (n : Note)
    (hsel : voiceTable T s v = some tbl) (hd : (s.copy v).d = Q)
    (hnext : readNote tbl (s.idx v + 1) = some n) (hoff : SafeOff T s v) :
    (∀ k : Nat, k < 10 → ∃ t, steadyRun T k s = some t ∧ (emit t).idx v = s.idx v ∧
        (emit t).freq v = (s.copy v).p ∧ (emit t).dur v = 250 - 25 * (k : Int)) ∧
    (∃ t, steadyRun T 10 s = some t ∧ t.idx v = s.idx v + 1 ∧ t.copy v = n) := by
  have hc : s.copy v = ⟨(s.copy v).p, 25 * ((10 : Nat) : Int)⟩ := by
    rcases hcv : s.copy v with ⟨p, d⟩
    rw [hcv] at hd
    simp only [Note.mk.injEq, true_and]
    simpa using hd
  constructor
  · intro k hk
    obtain ⟨t, ht, _, _, hidx, hcopy, _⟩ :=
      countdown (T := T) (v := v) (s.copy v).p 10 (by decide) k s hk hoff hc
    refine ⟨t, ht, by rw [emit_idx, hidx], by rw [emit_freq, hcopy], ?_⟩
    rw [emit_dur, hcopy]
    push_cast
    ring
  · obtain ⟨t, ht, htoff, hst, hidx, hcopy, _⟩ :=
      countdown (T := T) (v := v) (s.copy v).p 10 (by decide) 9 s (by decide) hoff hc
    have hsel2 : voiceTable T t v = some tbl := by rw [voiceTable_stored T hst, hsel]
    have hd2 : (t.copy v).d = 25 := by rw [hcopy]; norm_num
    obtain ⟨u, hu, _, _, huidx, hucopy, _⟩ :=
      rollover htoff hsel2 hd2 (by rw [hidx]; exact hnext)
    refine ⟨u, ?_, by rw [huidx, hidx], hucopy⟩
    rw [show (10 : Nat) = 9 + 1 from rfl, steadyRun_succ_right, ht]
    exact hu

/-- C1 at voice 0 of the example tables, right after startup. -/
theorem boundary_exactness_witness :
    voiceTable exampleTables exampleStart Voice.v0 = some exampleTables.bach0 ∧
    (exampleStart.copy Voice.v0).d = Q ∧
    readNote exampleTables.bach0 (exampleStart.idx Voice.v0 + 1) = some ⟨R, E⟩ ∧
    ((∀ k : Nat, k < 10 → ∃ t, steadyRun exampleTables k exampleStart = some t ∧
        (emit t).idx Voice.v0 = exampleStart.idx Voice.v0 ∧
        (emit t).freq Voice.v0 = (exampleStart.copy Voice.v0).p ∧
        (emit t).dur Voice.v0 = 250 - 25 * (k : Int)) ∧
      (∃ t, steadyRun exampleTables 10 exampleStart = some t ∧
        t.idx Voice.v0 = exampleStart.idx Voice.v0 + 1 ∧ t.copy Voice.v0 = ⟨R, E⟩)) :=
  ⟨rfl, rfl, rfl,
    boundary_exactness exampleTables exampleStart Voice.v0 exampleTables.bach0 ⟨R, E⟩ rfl rfl rfl
      (fun w _ => exampleStart_safe w)⟩

/-- A whole note of `25 * m`, from loading to the rollover that ends it. -/
theorem play_note {T : Tables} {v : Voice} {tbl : List Note} {n : Note} (p : Int) (m : Nat)
    (hm1 : 1 ≤ m) (hm : m ≤ 40000000) (s : State) (hoff : SafeOff T s v)
    (hc : s.copy v = ⟨p, 25 * (m : Int)⟩) (hsel : voiceTable T s v = some tbl)
    (hnext : readNote tbl (s.idx v + 1) = some n) :
    ∃ t, steadyRun T m s = some t ∧ SafeOff T t v ∧ stored t = stored s ∧
      t.idx v = s.idx v + 1 ∧ t.copy v = n ∧
      (v = Voice.v0 → (t.num0, t.num1, t.num2) =
        windowStep true s.i0 25 n.d (s.num0, s.num1, s.num2)) := by
  obtain ⟨t, ht, htoff, hst, hidx, hcopy, hwin⟩ :=
    countdown (T := T) (v := v) p m hm (m - 1) s (by omega) hoff hc
  have hsel2 : voiceTable T t v = some tbl := by rw [voiceTable_stored T hst, hsel]
  have hd2 : (t.copy v).d = 25 := by
    rw [hcopy]
    simp only
    have : ((m - 1 : Nat) : Int) = (m : Int) - 1 := by omega
    rw [this]
    ring
  obtain ⟨u, hu, huoff, hust, huidx, hucopy, huwin⟩ :=
    rollover htoff hsel2 hd2 (by rw [hidx]; exact hnext)
  refine ⟨u, ?_, huoff, by rw [hust, hst], by rw [huidx, hidx], hucopy, ?_⟩
  · have : m = (m - 1) + 1 := by omega
    rw [this, steadyRun_succ_right, ht]
    exact hu
  · intro hv
    subst hv
    obtain ⟨a, b, c⟩ := hwin rfl
    have e0 : t.i0 = s.i0 := hidx
    have e1 : t.copy0.d = 25 := hd2
    have e2 : u.copy0 = n := hucopy
    have e3 : voiceTable T t Voice.v0 = some tbl := hsel2
    rw [huwin, e0, e1, e2, e3, a, b, c]
    rfl

/-! ## C2: window growth -/

/-- C2. From a fresh selection (voice 0 at position 0 holding the first note, whose
duration seeds the window) of a score whose voice-0 table starts with durations 250,
125, 500, with the pins unchanged: the running average emitted by iteration `k + 1`
is 250 for `k < 10`, 375/2 = 187.5 for `10 ≤ k < 15` (after the first rollover) and
875/3 for `15 ≤ k < 35` (after the second); 875/3 is 291.67 to two decimals. -/
theorem window_growth (T : Tables) (s : State) (p0 p1 p2 : Int) (tl : List Note)
    (hsel : voiceTable T s Voice.v0 = some (⟨p0, Q⟩ :: ⟨p1, E⟩ :: ⟨p2, H⟩ :: tl))
    (hi : s.i0 = 0) (hc : s.copy0 = ⟨p0, Q⟩) (hseed : s.num0 = Q)
    (hoff : SafeOff T s Voice.v0) :
    (∀ k : Nat, k < 35 → ∃ t, steadyRun T k s = some t ∧
      (emit t).running_dur = if k < 10 then 250 else if k < 15 then 375 / 2 else 875 / 3) ∧
    |(875 / 3 : ℚ) - 291.67| < 0.005 := by
  refine ⟨?_, by norm_num [abs_lt]⟩
  have hc1 : s.copy Voice.v0 = ⟨p0, 25 * ((10 : Nat) : Int)⟩ := by
    show s.copy0 = _
    rw [hc]
    rfl
  -- the first note
  obtain ⟨t1, ht1, hoff1, hst1, hidx1, hcopy1, hwin1⟩ :=
    play_note (T := T) (v := Voice.v0) (n := ⟨p1, E⟩) p0 10 (by decide) (by decide) s hoff hc1
      hsel (by rw [show s.idx Voice.v0 = 0 from hi]; simp [readNote])
  have hsel1 : voiceTable T t1 Voice.v0 = some (⟨p0, Q⟩ :: ⟨p1, E⟩ :: ⟨p2, H⟩ :: tl) := by
    rw [voiceTable_stored T hst1, hsel]
  have hi1 : t1.i0 = 1 := by
    have : t1.i0 = s.i0 + 1 := hidx1
    rw [this, hi]
  have hw1 := hwin1 rfl
  rw [hi, hseed] at hw1
  simp [windowStep] at hw1
  -- the second note
  have hc2 : t1.copy Voice.v0 = ⟨p1, 25 * ((5 : Nat) : Int)⟩ := by
    rw [hcopy1]
    rfl
  obtain ⟨t2, ht2, hoff2, hst2, hidx2, hcopy2, hwin2⟩ :=
    play_note (T := T) (v := Voice.v0) (n := ⟨p2, H⟩) p1 5 (by decide) (by decide) t1 hoff1 hc2
      hsel1 (by rw [show t1.idx Voice.v0 = 1 from hi1]; simp [readNote])
  have hi2 : t2.i0 = 2 := by
    have : t2.i0 = t1.i0 + 1 := hidx2
    rw [this, hi1]
  have hw2 := hwin2 rfl
  rw [hi1, hw1.1, hw1.2.1] at hw2
  simp [windowStep] at hw2
  have hc3 : t2.copy Voice.v0 = ⟨p2, 25 * ((20 : Nat) : Int)⟩ := by
    rw [hcopy2]
    rfl
  intro k hk
  by_cases h10 : k < 10
  · obtain ⟨t, ht, _, _, hidx, _, hwin⟩ :=
      countdown (T := T) (v := Voice.v0) p0 10 (by decide) k s h10 hoff hc1
    refine ⟨t, ht, ?_⟩
    have e0 : t.i0 = 0 := by
      have : t.i0 = s.i0 := hidx
      rw [this, hi]
    have e1 : t.num0 = 250 := by rw [(hwin rfl).1, hseed]
    simp [emit, running_dur, e0, e1, h10]
  · by_cases h15 : k < 15
    · obtain ⟨t, ht, _, _, hidx, _, hwin⟩ :=
        countdown (T := T) (v := Voice.v0) p1 5 (by decide) (k - 10) t1 (by omega) hoff1 hc2
      refine ⟨t, ?_, ?_⟩
      · have : k = 10 + (k - 10) := by omega
        rw [this, steadyRun_add, ht1]
        exact ht
      · have e0 : t.i0 = 1 := by
          have : t.i0 = t1.i0 := hidx
          rw [this, hi1]
        have e1 : t.num0 = 250 := by rw [(hwin rfl).1, hw1.1]
        have e2 : t.num1 = 125 := by rw [(hwin rfl).2.1, hw1.2.1]
        simp only [emit, running_dur, e0, e1, e2, h10, h15]
        norm_num [wrapInt]
    · obtain ⟨t, ht, _, _, hidx, _, hwin⟩ :=
        countdown (T := T) (v := Voice.v0) p2 20 (by decide) (k - 15) t2 (by omega) hoff2 hc3
      refine ⟨t, ?_, ?_⟩
      · have : k = 10 + (5 + (k - 15)) := by omega
        rw [this, steadyRun_add, ht1, Option.some_bind, steadyRun_add, ht2]
        exact ht
      · have e0 : t.i0 = 2 := by
          have : t.i0 = t2.i0 := hidx
          rw [this, hi2]
        have e1 : t.num0 = 250 := by rw [(hwin rfl).1, hw2.1]
        have e2 : t.num1 = 125 := by rw [(hwin rfl).2.1, hw2.2.1]
        have e3 : t.num2 = 500 := by rw [(hwin rfl).2.2, hw2.2.2]
        simp only [emit, running_dur, e0, e1, e2, e3, h10, h15]
        norm_num [wrapInt]

theorem exampleStartB_safe : StateSafe exampleTables exampleStartB := by
  intro v
  cases v
  · intro t ht
    simp only [voiceTable, tableOf, exampleStartB, exampleTables] at ht
    cases ht
    exact ⟨3, by decide, by decide, ⟨⟨R, DONE⟩, rfl, rfl⟩, by decide⟩
  · exact voiceSafe_at_done (by decide) rfl rfl
  · exact voiceSafe_at_done (by decide) rfl rfl

/-- C2 on the second score of the example tables, right after startup. -/
theorem window_growth_witness :
    startup exampleTables ⟨0, 1, 0⟩ = some exampleStartB ∧
    ((∀ k : Nat, k < 35 → ∃ t, steadyRun exampleTables k exampleStartB = some t ∧
      (emit t).running_dur = if k < 10 then 250 else if k < 15 then 375 / 2 else 875 / 3) ∧
    |(875 / 3 : ℚ) - 291.67| < 0.005) :=
  ⟨rfl, window_growth exampleTables exampleStartB A4 A4 A4 [⟨R, DONE⟩] rfl rfl rfl rfl
    (fun w _ => exampleStartB_safe w)⟩

/-! ## C3: the control mapping at 250 -/

/-- C3, as stated, fails: at a running average of 250 the duty cycle is not 595250. -/
theorem control_mapping_not_595250 :
    running_dur exampleStart = 250 ∧ (emit exampleStart).pwm_duty ≠ 595250 := by
  constructor
  · simp [running_dur, exampleStart]
  · simp [emit, running_dur, exampleStart, pwm_duty]
    norm_num

/-- C3, amended. Whenever the running average of durations is 250, the duty cycle the
main loop computes, `(-0.0457 * 250 + 70.7) * 10000` in exact arithmetic, is 592750. -/
theorem control_mapping (s : State) (h : running_dur s = 250) :
    (emit s).pwm_duty = 592750 ∧ pwm_duty 250 = (-0.0457 * 250 + 70.7) * 10000 := by
  constructor
  · show pwm_duty (running_dur s) = 592750
    rw [h]
    norm_num [pwm_duty]
  · rfl

/-- C3 amended, at the startup state of the example tables. -/
theorem control_mapping_witness :
    running_dur exampleStartB = 250 ∧
    ((emit exampleStartB).pwm_duty = 592750 ∧ pwm_duty 250 = (-0.0457 * 250 + 70.7) * 10000) :=
  ⟨by simp [running_dur, exampleStartB],
    control_mapping exampleStartB (by simp [running_dur, exampleStartB])⟩

/-! ## C4: the end-to-end scenario -/

/-- A voice holding `DONE` stays as it is, for any number of steady iterations. -/
theorem hold_done {T : Tables} {v : Voice} :
    ∀ (j : Nat) (s : State), SafeOff T s v → (s.copy v).d = DONE →
      ∃ t, steadyRun T j s = some t ∧ SafeOff T t v ∧ stored t = stored s ∧
        t.idx v = s.idx v ∧ t.copy v = s.copy v ∧
        (v = Voice.v0 → t.num0 = s.num0 ∧ t.num1 = s.num1 ∧ t.num2 = s.num2) := by
  intro j
  induction j with
  | zero =>
    intro s hoff _
    exact ⟨s, rfl, hoff, rfl, rfl, rfl, fun _ => ⟨rfl, rfl, rfl⟩⟩
  | succ j ih =>
    intro s hoff hd
    obtain ⟨t, ht, htoff, hst, hidx, hcopy, hwin⟩ := ih s hoff hd
    have hd2 : (t.copy v).d = DONE := by rw [hcopy, hd]
    have hx : cursorStep (voiceTable T t v) (t.idx v) (t.copy v) = some (t.idx v, t.copy v) := by
      unfold cursorStep
      rw [hd2]
      simp only [decay, if_false, show ¬ (DONE = 25) by decide, ne_eq, not_true_eq_false]
      rw [← hd2]
    obtain ⟨u, hu, huoff, hust, huidx, hucopy, huwin⟩ := steady_follow htoff hx
    refine ⟨u, ?_, huoff, by rw [hust, hst], by rw [huidx]; exact hidx, by rw [hucopy, hcopy],
      ?_⟩
    · rw [steadyRun_succ_right, ht]
      exact hu
    · intro hv
      subst hv
      have h25 : t.copy0.d ≠ 25 := by
        have : t.copy0.d = DONE := hd2
        rw [this]
        decide
      simp only [windowStep, h25, if_false, Prod.mk.injEq] at huwin
      obtain ⟨a, b, c⟩ := hwin rfl
      exact ⟨by rw [huwin.1, a], by rw [huwin.2.1, b], by rw [huwin.2.2, c]⟩

/-- A sentinel-terminated array can be read at 0, and a voice that has just loaded
its first note is safe. -/
theorem sentinel_first {tbl : List Note} (h : sentinelTerminated tbl) :
    ∃ n, readNote tbl 0 = some n ∧ VoiceSafe (some tbl) 0 n := by
  obtain ⟨hlast, hlen⟩ := h
  cases tbl with
  | nil => simp at hlast
  | cons a l =>
    refine ⟨a, by simp [readNote], ?_⟩
    intro t ht
    cases ht
    rw [List.getLast?_eq_getElem?] at hlast
    simp only [List.length_cons, Nat.add_sub_cancel] at hlast hlen
    refine ⟨l.length, Nat.zero_le _, by omega, ⟨_, hlast, rfl⟩, ?_⟩
    intro e
    rw [← e] at hlast
    simp only [List.getElem?_cons_zero, Option.some.injEq] at hlast
    rw [hlast]

/-- C4, as stated, fails: on the example tables (voice 0 is `(440,250),(0,125)` and
the sentinel, voices 1 and 2 rest), with the first pin held, the state at the start
of the iteration at time 375 (after 15 iterations) is at position 2 on the sentinel,
not back at position 0 on `(440,250)`. -/
theorem end_to_end_no_wrap :
    startup exampleTables ⟨1, 0, 0⟩ = some exampleStart ∧
    steadyRun exampleTables 15 exampleStart =
      some { exampleStart with i0 := 2, num1 := 125, num2 := 42, copy0 := ⟨R, DONE⟩ } ∧
    ¬ ((emit { exampleStart with i0 := 2, num1 := 125, num2 := 42, copy0 := ⟨R, DONE⟩ }).i0 = 0 ∧
       (emit { exampleStart with i0 := 2, num1 := 125, num2 := 42, copy0 := ⟨R, DONE⟩ }).freq0 = 440 ∧
       (emit { exampleStart with i0 := 2, num1 := 125, num2 := 42, copy0 := ⟨R, DONE⟩ }).dur0 = 250) := by
  refine ⟨rfl, by decide, by decide⟩

/-- C4, amended. With the first pin selected and held, voice 0 of the first score
`(440,250),(0,125)` followed by the sentinel, and sentinel-terminated voices 1 and 2:
the iterations at times 0, 25, ..., 225 emit voice-0 frequency 440 from position 0,
those at times 250..350 emit frequency 0 from position 1, and from time 375 on
voice 0 stays at position 2 on the sentinel, emitting frequency 0 with remaining
`DONE`; it never returns to position 0. -/
theorem end_to_end (T : Tables) (h0 : T.bach0 = [⟨440, 250⟩, ⟨0, 125⟩, ⟨R, DONE⟩])
    (h1 : sentinelTerminated T.bach1) (h2 : sentinelTerminated T.bach2) :
    ∃ s0, startup T ⟨1, 0, 0⟩ = some s0 ∧ ∀ k : Nat, ∃ t, steadyRun T k s0 = some t ∧
      (k < 10 → (emit t).i0 = 0 ∧ (emit t).freq0 = 440 ∧ (emit t).dur0 = 250 - 25 * (k : Int)) ∧
      (10 ≤ k → k < 15 →
        (emit t).i0 = 1 ∧ (emit t).freq0 = 0 ∧ (emit t).dur0 = 125 - 25 * ((k : Int) - 10)) ∧
      (15 ≤ k → (emit t).i0 = 2 ∧ (emit t).freq0 = 0 ∧ (emit t).dur0 = DONE) := by
  obtain ⟨n1, hn1, hs1⟩ := sentinel_first h1
  obtain ⟨n2, hn2, hs2⟩ := sentinel_first h2
  refine ⟨freshState ⟨1, 0, 0⟩ ⟨440, 250⟩ n1 n2, ?_, ?_⟩
  · have hr0 : readNote T.bach0 0 = some ⟨440, 250⟩ := by rw [h0]; rfl
    simp [startup, hr0, hn1, hn2, freshState]
  generalize hs : freshState ⟨1, 0, 0⟩ ⟨440, 250⟩ n1 n2 = s
  have hin : s.in0 = 1 := by rw [← hs]; rfl
  have hi : s.i0 = 0 := by rw [← hs]; rfl
  have hc : s.copy0 = ⟨440, 250⟩ := by rw [← hs]; rfl
  have hsel : voiceTable T s Voice.v0 = some [⟨440, 250⟩, ⟨0, 125⟩, ⟨R, DONE⟩] := by
    simp [voiceTable, tableOf, hin, h0]
  have hoff : SafeOff T s Voice.v0 := by
    intro w hw
    cases w
    · exact absurd rfl hw
    · have e : voiceTable T s Voice.v1 = some T.bach1 := by simp [voiceTable, tableOf, hin]
      rw [e, ← hs]
      exact hs1
    · have e : voiceTable T s Voice.v2 = some T.bach2 := by simp [voiceTable, tableOf, hin]
      rw [e, ← hs]
      exact hs2
  have hc1 : s.copy Voice.v0 = ⟨440, 25 * ((10 : Nat) : Int)⟩ := by
    show s.copy0 = _
    rw [hc]
    rfl
  obtain ⟨t1, ht1, hoff1, hst1, hidx1, hcopy1, _⟩ :=
    play_note (T := T) (v := Voice.v0) (n := ⟨0, 125⟩) 440 10 (by decide) (by decide) s hoff hc1
      hsel (by rw [show s.idx Voice.v0 = 0 from hi]; simp [readNote])
  have hsel1 : voiceTable T t1 Voice.v0 = some [⟨440, 250⟩, ⟨0, 125⟩, ⟨R, DONE⟩] := by
    rw [voiceTable_stored T hst1, hsel]
  have hi1 : t1.i0 = 1 := by
    have : t1.i0 = s.i0 + 1 := hidx1
    rw [this, hi]
  have hc2 : t1.copy Voice.v0 = ⟨0, 25 * ((5 : Nat) : Int)⟩ := by
    rw [hcopy1]
    rfl
  obtain ⟨t2, ht2, hoff2, hst2, hidx2, hcopy2, _⟩ :=
    play_note (T := T) (v := Voice.v0) (n := ⟨R, DONE⟩) 0 5 (by decide) (by decide) t1 hoff1 hc2
      hsel1 (by rw [show t1.idx Voice.v0 = 1 from hi1]; simp [readNote])
  have hi2 : t2.i0 = 2 := by
    have : t2.i0 = t1.i0 + 1 := hidx2
    rw [this, hi1]
  intro k
  by_cases h10 : k < 10
  · obtain ⟨t, ht, _, _, hidx, hcopy, _⟩ :=
      countdown (T := T) (v := Voice.v0) 440 10 (by decide) k s h10 hoff hc1
    have e0 : t.i0 = 0 := by
      have : t.i0 = s.i0 := hidx
      rw [this, hi]
    have e1 : t.copy0 = ⟨440, 25 * (((10 : Nat) : Int) - k)⟩ := hcopy
    refine ⟨t, ht, fun _ => ⟨e0, ?_, ?_⟩, fun h => absurd h10 (by omega),
      fun h => absurd h10 (by omega)⟩
    · show t.copy0.p = 440
      rw [e1]
    · show t.copy0.d = _
      rw [e1]
      push_cast
      ring
  · by_cases h15 : k < 15
    · obtain ⟨t, ht, _, _, hidx, hcopy, _⟩ :=
        countdown (T := T) (v := Voice.v0) 0 5 (by decide) (k - 10) t1 (by omega) hoff1 hc2
      have e0 : t.i0 = 1 := by
        have : t.i0 = t1.i0 := hidx
        rw [this, hi1]
      have e1 : t.copy0 = ⟨0, 25 * (((5 : Nat) : Int) - (k - 10 : Nat))⟩ := hcopy
      refine ⟨t, ?_, fun h => absurd h h10, fun _ _ => ⟨e0, ?_, ?_⟩,
        fun h => absurd h15 (by omega)⟩
      · have : k = 10 + (k - 10) := by omega
        rw [this, steadyRun_add, ht1]
        exact ht
      · show t.copy0.p = 0
        rw [e1]
      · show t.copy0.d = _
        rw [e1]
        have : ((k - 10 : Nat) : Int) = (k : Int) - 10 := by omega
        simp only [this]
        push_cast
        ring
    · obtain ⟨t, ht, _, _, hidx, hcopy, _⟩ :=
        hold_done (T := T) (v := Voice.v0) (k - 15) t2 hoff2 (by rw [hcopy2])
      have e0 : t.i0 = 2 := by
        have : t.i0 = t2.i0 := hidx
        rw [this, hi2]
      have e1 : t.copy0 = ⟨R, DONE⟩ := by
        have : t.copy0 = t2.copy Voice.v0 := hcopy
        rw [this, hcopy2]
      refine ⟨t, ?_, fun h => absurd h h10, fun _ h => absurd h h15, fun _ => ⟨e0, ?_, ?_⟩⟩
      · have : k = 10 + (5 + (k - 15)) := by omega
        rw [this, steadyRun_add, ht1, Option.some_bind, steadyRun_add, ht2]
        exact ht
      · show t.copy0.p = 0
        rw [e1]
      · show t.copy0.d = DONE
        rw [e1]

/-- C4 amended, on the example tables. -/
theorem end_to_end_witness :
    exampleTables.bach0 = [⟨440, 250⟩, ⟨0, 125⟩, ⟨R, DONE⟩] ∧
    ∃ s0, startup exampleTables ⟨1, 0, 0⟩ = some s0 ∧ ∀ k : Nat,
      ∃ t, steadyRun exampleTables k s0 = some t ∧
      (k < 10 → (emit t).i0 = 0 ∧ (emit t).freq0 = 440 ∧ (emit t).dur0 = 250 - 25 * (k : Int)) ∧
      (10 ≤ k → k < 15 →
        (emit t).i0 = 1 ∧ (emit t).freq0 = 0 ∧ (emit t).dur0 = 125 - 25 * ((k : Int) - 10)) ∧
      (15 ≤ k → (emit t).i0 = 2 ∧ (emit t).freq0 = 0 ∧ (emit t).dur0 = DONE) :=
  ⟨rfl, end_to_end exampleTables rfl ⟨rfl, by decide⟩ ⟨rfl, by decide⟩⟩

/-! ## Fresh selections -/

theorem voiceTable_eq_scoreOf (T : Tables) (s : State) (v : Voice) :
    voiceTable T s v = (scoreOf T (selection (stored s))).map fun x => voiceOf x v := by
  cases v <;> simp only [voiceTable, tableOf, selection, stored] <;>
    by_cases a : s.in0 = 0 <;> by_cases b : s.in1 = 0 <;> by_cases c : s.in2 = 0 <;>
    simp [a, b, c, scoreOf, voiceOf]

theorem selection_none_iff (r : Reads) :
    selection r = Selection.None ↔ r.r0 = 0 ∧ r.r1 = 0 ∧ r.r2 = 0 := by
  unfold selection
  by_cases a : r.r0 = 0 <;> by_cases b : r.r1 = 0 <;> by_cases c : r.r2 = 0 <;> simp [a, b, c]

/-- A changed sample that selects a score loads the first notes of that score. -/
theorem readSwitches_changed {T : Tables} {s : State} {r : Reads}
    {a b c : List Note} {n0 n1 n2 : Note}
    (hch : s.in0 ≠ r.r0 ∨ s.in1 ≠ r.r1 ∨ s.in2 ≠ r.r2)
    (hX : scoreOf T (selection r) = some (a, b, c))
    (h0 : readNote a 0 = some n0) (h1 : readNote b 0 = some n1) (h2 : readNote c 0 = some n2) :
    readSwitches T r s = some (freshState r n0 n1 n2) := by
  unfold readSwitches
  rw [if_pos hch]
  unfold selection at hX
  by_cases x : r.r0 = 0 <;> by_cases y : r.r1 = 0 <;> by_cases z : r.r2 = 0 <;>
    simp only [x, y, z, ne_eq, not_true_eq_false, not_false_eq_true, if_true, if_false, scoreOf,
      Option.some.injEq, Prod.mk.injEq] at hX <;>
    first
    | (cases hX; done)
    | (obtain ⟨rfl, rfl, rfl⟩ := hX
       simp [x, y, z, h0, h1, h2, freshState])

/-- A changed sample with all pins low loads the rest note everywhere. -/
theorem readSwitches_idle {T : Tables} {s : State} {r : Reads}
    (hch : s.in0 ≠ r.r0 ∨ s.in1 ≠ r.r1 ∨ s.in2 ≠ r.r2)
    (hX : selection r = Selection.None) :
    readSwitches T r s = some (freshState r rest rest rest) := by
  obtain ⟨x, y, z⟩ := (selection_none_iff r).mp hX
  unfold readSwitches
  rw [if_pos hch]
  simp [x, y, z, freshState]

/-- An unchanged sample leaves the state as the steady part produced it. -/
theorem readSwitches_same {T : Tables} {s : State} {r : Reads}
    (h0 : r.r0 = s.in0) (h1 : r.r1 = s.in1) (h2 : r.r2 = s.in2) :
    readSwitches T r s = some s := by
  unfold readSwitches
  rw [if_neg (by simp [h0, h1, h2])]
  cases s
  simp only at h0 h1 h2
  subst h0 h1 h2
  rfl

/-- Startup loads the first notes of the selected score. -/
theorem startup_fresh {T : Tables} {r : Reads} {a b c : List Note} {n0 n1 n2 : Note}
    (hX : scoreOf T (selection r) = some (a, b, c))
    (h0 : readNote a 0 = some n0) (h1 : readNote b 0 = some n1) (h2 : readNote c 0 = some n2) :
    startup T r = some (freshState r n0 n1 n2) := by
  unfold startup
  unfold selection at hX
  by_cases x : r.r0 = 0 <;> by_cases y : r.r1 = 0 <;> by_cases z : r.r2 = 0 <;>
    simp only [x, y, z, ne_eq, not_true_eq_false, not_false_eq_true, if_true, if_false, scoreOf,
      Option.some.injEq, Prod.mk.injEq] at hX <;>
    first
    | (cases hX; done)
    | (obtain ⟨rfl, rfl, rfl⟩ := hX
       simp [x, y, z, h0, h1, h2, freshState])

/-! ## C5: an unchanged selection -/

/-- C5, as stated, fails. On the example tables the state reached after startup with
the first pin high and one iteration plays the first score with 225 left in voice 0.
A sample in which the second pin has gone high as well still selects the first score
(priority), yet the iteration reloads the first note in full (250 left) instead of the
200 the steady advance leaves. -/
theorem same_selection_still_resets :
    startup exampleTables ⟨1, 0, 0⟩ = some exampleStart ∧
    tick exampleTables exampleStart ⟨1, 0, 0⟩ = some { exampleStart with copy0 := ⟨A4, 225⟩ } ∧
    selection ⟨1, 1, 0⟩ = selection (stored { exampleStart with copy0 := ⟨A4, 225⟩ }) ∧
    steady exampleTables { exampleStart with copy0 := ⟨A4, 225⟩ } =
      some { exampleStart with copy0 := ⟨A4, 200⟩ } ∧
    tick exampleTables { exampleStart with copy0 := ⟨A4, 225⟩ } ⟨1, 1, 0⟩ =
      some { exampleStart with in1 := 1, copy0 := ⟨A4, 250⟩ } := by
  refine ⟨rfl, by decide, by decide, by decide, by decide⟩

/-- C5, amended. For every state and every iteration in which the three pin reads
equal the three stored reads, no reset happens: the iteration is exactly its steady
part (positions, pitches, remaining durations, window and stored reads are those the
advance and rollover alone produce). -/
theorem no_reset_when_reads_unchanged (T : Tables) (s : State) (r : Reads)
    (h0 : r.r0 = s.in0) (h1 : r.r1 = s.in1) (h2 : r.r2 = s.in2) :
    tick T s r = steady T s := by
  unfold tick
  cases h : steady T s with
  | none => rfl
  | some t =>
    obtain ⟨e0, e1, e2⟩ := steady_stored h
    exact readSwitches_same (by rw [h0, e0]) (by rw [h1, e1]) (by rw [h2, e2])

/-- C5 amended, at the startup state of the example tables. -/
theorem no_reset_when_reads_unchanged_witness :
    tick exampleTables exampleStart ⟨1, 0, 0⟩ = steady exampleTables exampleStart ∧
    steady exampleTables exampleStart = some { exampleStart with copy0 := ⟨A4, 225⟩ } :=
  ⟨no_reset_when_reads_unchanged exampleTables exampleStart ⟨1, 0, 0⟩ rfl rfl rfl, by decide⟩

/-! ## C6: the hard-cut reset -/

/-- C6. For every state whose steady part is defined and every iteration whose pin
reads differ from the stored ones and select score X (arrays `a`, `b`, `c` with first
notes `n0`, `n1`, `n2`): after the iteration all three positions are 0, each voice
holds the pitch and the full duration of its first note in X, and the window is
`(n0.d, 0, 0)`. Startup on the same reads builds the same state, and the next
iteration emits the first notes and the average `n0.d`. -/
theorem hard_cut_reset (T : Tables) (s s1 : State) (r : Reads) (a b c : List Note)
    (n0 n1 n2 : Note) (hst : steady T s = some s1)
    (hch : s.in0 ≠ r.r0 ∨ s.in1 ≠ r.r1 ∨ s.in2 ≠ r.r2)
    (hX : scoreOf T (selection r) = some (a, b, c))
    (h0 : readNote a 0 = some n0) (h1 : readNote b 0 = some n1) (h2 : readNote c 0 = some n2) :
    ∃ t, tick T s r = some t ∧ startup T r = some t ∧
      stored t = r ∧ t.i0 = 0 ∧ t.i1 = 0 ∧ t.i2 = 0 ∧
      t.copy0 = n0 ∧ t.copy1 = n1 ∧ t.copy2 = n2 ∧
      (t.num0, t.num1, t.num2) = (n0.d, 0, 0) ∧
      ((emit t).freq0, (emit t).freq1, (emit t).freq2) = (n0.p, n1.p, n2.p) ∧
      ((emit t).dur0, (emit t).dur1, (emit t).dur2) = (n0.d, n1.d, n2.d) ∧
      (emit t).running_dur = n0.d := by
  refine ⟨freshState r n0 n1 n2, ?_, startup_fresh hX h0 h1 h2, rfl, rfl, rfl, rfl, rfl, rfl,
    rfl, rfl, rfl, rfl, ?_⟩
  · obtain ⟨e0, e1, e2⟩ := steady_stored hst
    unfold tick
    rw [hst]
    exact readSwitches_changed (by rw [e0, e1, e2]; exact hch) hX h0 h1 h2
  · simp [emit, running_dur, freshState]

/-- C6 on the example tables: in the middle of the first score the second pin goes
high alone, and the second score starts from its first notes. -/
theorem hard_cut_reset_witness :
    steady exampleTables exampleStart = some { exampleStart with copy0 := ⟨A4, 225⟩ } ∧
    ∃ t, tick exampleTables exampleStart ⟨0, 1, 0⟩ = some t ∧
      startup exampleTables ⟨0, 1, 0⟩ = some t ∧
      stored t = ⟨0, 1, 0⟩ ∧ t.i0 = 0 ∧ t.i1 = 0 ∧ t.i2 = 0 ∧
      t.copy0 = ⟨A4, Q⟩ ∧ t.copy1 = ⟨R, DONE⟩ ∧ t.copy2 = ⟨R, DONE⟩ ∧
      (t.num0, t.num1, t.num2) = ((⟨A4, Q⟩ : Note).d, 0, 0) ∧
      ((emit t).freq0, (emit t).freq1, (emit t).freq2) =
        ((⟨A4, Q⟩ : Note).p, (⟨R, DONE⟩ : Note).p, (⟨R, DONE⟩ : Note).p) ∧
      ((emit t).dur0, (emit t).dur1, (emit t).dur2) =
        ((⟨A4, Q⟩ : Note).d, (⟨R, DONE⟩ : Note).d, (⟨R, DONE⟩ : Note).d) ∧
      (emit t).running_dur = (⟨A4, Q⟩ : Note).d :=
  ⟨by decide,
    hard_cut_reset exampleTables exampleStart { exampleStart with copy0 := ⟨A4, 225⟩ } ⟨0, 1, 0⟩
      exampleTables.canon0 exampleTables.canon1 exampleTables.canon2 ⟨A4, Q⟩ ⟨R, DONE⟩ ⟨R, DONE⟩
      (by decide) (by decide) rfl rfl rfl rfl⟩

/-! ## Reachable states of well-formed tables are safe -/

theorem wellFormed_scoreOf {T : Tables} (hT : WellFormed T) {X : Selection}
    {a b c : List Note} (hX : scoreOf T X = some (a, b, c)) :
    sentinelTerminated a ∧ sentinelTerminated b ∧ sentinelTerminated c := by
  obtain ⟨a0, a1, a2, b0, b1, b2, c0, c1, c2⟩ := hT
  cases X <;> simp only [scoreOf, Option.some.injEq, Prod.mk.injEq] at hX
  · cases hX
  · obtain ⟨rfl, rfl, rfl⟩ := hX
    exact ⟨a0, a1, a2⟩
  · obtain ⟨rfl, rfl, rfl⟩ := hX
    exact ⟨b0, b1, b2⟩
  · obtain ⟨rfl, rfl, rfl⟩ := hX
    exact ⟨c0, c1, c2⟩

theorem scoreOf_cases (T : Tables) (X : Selection) :
    (X = Selection.None ∧ scoreOf T X = none) ∨ ∃ a b c, scoreOf T X = some (a, b, c) := by
  cases X
  · exact Or.inl ⟨rfl, rfl⟩
  · exact Or.inr ⟨_, _, _, rfl⟩
  · exact Or.inr ⟨_, _, _, rfl⟩
  · exact Or.inr ⟨_, _, _, rfl⟩

theorem freshState_safe {T : Tables} {r : Reads} {a b c : List Note} {n0 n1 n2 : Note}
    (hX : scoreOf T (selection r) = some (a, b, c))
    (h0 : VoiceSafe (some a) 0 n0) (h1 : VoiceSafe (some b) 0 n1) (h2 : VoiceSafe (some c) 0 n2) :
    StateSafe T (freshState r n0 n1 n2) := by
  intro v
  have hst : stored (freshState r n0 n1 n2) = r := rfl
  rw [voiceTable_eq_scoreOf, hst, hX]
  cases v
  · exact h0
  · exact h1
  · exact h2

theorem idleState_safe (T : Tables) {r : Reads} (hX : selection r = Selection.None)
    (n0 n1 n2 : Note) : StateSafe T (freshState r n0 n1 n2) := by
  intro v
  have hst : stored (freshState r n0 n1 n2) = r := rfl
  rw [voiceTable_eq_scoreOf, hst, hX]
  intro t ht
  cases ht

/-- On well-formed tables a fresh selection can always be loaded, and is safe. -/
theorem fresh_defined {T : Tables} (hT : WellFormed T) {r : Reads} {a b c : List Note}
    (hX : scoreOf T (selection r) = some (a, b, c)) :
    ∃ n0 n1 n2, readNote a 0 = some n0 ∧ readNote b 0 = some n1 ∧ readNote c 0 = some n2 ∧
      StateSafe T (freshState r n0 n1 n2) := by
  obtain ⟨ha, hb, hc⟩ := wellFormed_scoreOf hT hX
  obtain ⟨n0, h0, s0⟩ := sentinel_first ha
  obtain ⟨n1, h1, s1⟩ := sentinel_first hb
  obtain ⟨n2, h2, s2⟩ := sentinel_first hc
  exact ⟨n0, n1, n2, h0, h1, h2, freshState_safe hX s0 s1 s2⟩

theorem startup_none {T : Tables} {r : Reads} (hX : selection r = Selection.None) :
    startup T r = none := by
  obtain ⟨x, y, z⟩ := (selection_none_iff r).mp hX
  simp [startup, x, y, z]

theorem startup_safe {T : Tables} (hT : WellFormed T) {r : Reads} {s : State}
    (h : startup T r = some s) : StateSafe T s := by
  rcases scoreOf_cases T (selection r) with ⟨hn, _⟩ | ⟨a, b, c, hX⟩
  · rw [startup_none hn] at h
    cases h
  · obtain ⟨n0, n1, n2, h0, h1, h2, hsafe⟩ := fresh_defined hT hX
    rw [startup_fresh hX h0 h1 h2] at h
    cases h
    exact hsafe

theorem startup_defined {T : Tables} (hT : WellFormed T) {r : Reads}
    (h : selection r ≠ Selection.None) : ∃ s, startup T r = some s := by
  rcases scoreOf_cases T (selection r) with ⟨hn, _⟩ | ⟨a, b, c, hX⟩
  · exact absurd hn h
  · obtain ⟨n0, n1, n2, h0, h1, h2, _⟩ := fresh_defined hT hX
    exact ⟨_, startup_fresh hX h0 h1 h2⟩

/-- On well-formed tables an iteration from a safe state is defined and ends in a
safe state, whatever the pins read. -/
theorem tick_safe {T : Tables} (hT : WellFormed T) {s : State} (hs : StateSafe T s)
    (r : Reads) : ∃ t, tick T s r = some t ∧ StateSafe T t := by
  obtain ⟨s1, hs1, hsafe1⟩ := steady_safe hs
  unfold tick
  rw [hs1]
  simp only [Option.some_bind]
  by_cases hch : s1.in0 ≠ r.r0 ∨ s1.in1 ≠ r.r1 ∨ s1.in2 ≠ r.r2
  · rcases scoreOf_cases T (selection r) with ⟨hn, _⟩ | ⟨a, b, c, hX⟩
    · exact ⟨_, readSwitches_idle hch hn, idleState_safe T hn _ _ _⟩
    · obtain ⟨n0, n1, n2, h0, h1, h2, hsafe⟩ := fresh_defined hT hX
      exact ⟨_, readSwitches_changed hch hX h0 h1 h2, hsafe⟩
  · simp only [not_or, not_not] at hch
    exact ⟨s1, readSwitches_same hch.1.symm hch.2.1.symm hch.2.2.symm, hsafe1⟩

theorem reachable_safe {T : Tables} (hT : WellFormed T) {s : State} (h : Reachable T s) :
    StateSafe T s := by
  induction h with
  | start r s hs => exact startup_safe hT hs
  | step s r t _ ht ih =>
    obtain ⟨u, hu, husafe⟩ := tick_safe hT ih r
    rw [ht] at hu
    cases hu
    exact husafe

/-! ## C7: an exhausted voice -/

/-- Two states that agree on the stored selection and on every voice but `v` still
do so after a steady iteration. -/
theorem steady_agree {T : Tables} {v : Voice} {s u t w : State}
    (hst : selection (stored u) = selection (stored s))
    (hag : ∀ x, x ≠ v → u.idx x = s.idx x ∧ u.copy x = s.copy x)
    (ht : steady T s = some t) (hw : steady T u = some w) :
    selection (stored w) = selection (stored t) ∧
      ∀ x, x ≠ v → w.idx x = t.idx x ∧ w.copy x = t.copy x := by
  refine ⟨by rw [stored_steady hw, stored_steady ht, hst], ?_⟩
  intro x hx
  have h1 := steady_voice ht x
  have h2 := steady_voice hw x
  have htab : voiceTable T u x = voiceTable T s x := by
    rw [voiceTable_eq_scoreOf, voiceTable_eq_scoreOf, hst]
  rw [htab, (hag x hx).1, (hag x hx).2, h1] at h2
  simp only [Option.some.injEq, Prod.mk.injEq] at h2
  exact ⟨h2.1.symm, h2.2.symm⟩

theorem steadyRun_agree {T : Tables} {v : Voice} (n : Nat) :
    ∀ {s u t w : State}, selection (stored u) = selection (stored s) →
      (∀ x, x ≠ v → u.idx x = s.idx x ∧ u.copy x = s.copy x) →
      steadyRun T n s = some t → steadyRun T n u = some w →
      ∀ x, x ≠ v → w.idx x = t.idx x ∧ w.copy x = t.copy x := by
  induction n with
  | zero =>
    intro s u t w _ hag ht hw
    simp only [steadyRun, Option.some.injEq] at ht hw
    subst ht hw
    exact hag
  | succ n ih =>
    intro s u t w hst hag ht hw
    rw [steadyRun_succ] at ht hw
    simp only [Option.bind_eq_some] at ht hw
    obtain ⟨s1, hs1, ht1⟩ := ht
    obtain ⟨u1, hu1, hw1⟩ := hw
    obtain ⟨hst1, hag1⟩ := steady_agree hst hag hs1 hu1
    exact ih hst1 hag1 ht1 hw1

/-- C7. On well-formed tables, in a reachable state in which voice `v` has loaded
its sentinel `(R, DONE)`: after any number `n` of iterations with unchanged pins the
loop is still running, voice `v` emits frequency 0 with remaining `DONE` from the
same position, and the other two voices are exactly where they are after `n`
iterations from any other state with the same stored selection and the same cursors
for those two voices (whatever that state holds for voice `v` and the window). -/
theorem exhausted_voice (T : Tables) (hT : WellFormed T) (s : State) (hs : Reachable T s)
    (v : Voice) (hsent : s.copy v = ⟨R, DONE⟩) (n : Nat) :
    ∃ t, steadyRun T n s = some t ∧
      (emit t).freq v = 0 ∧ (emit t).dur v = DONE ∧ (emit t).idx v = s.idx v ∧
      ∀ u w, selection (stored u) = selection (stored s) →
        (∀ x, x ≠ v → u.idx x = s.idx x ∧ u.copy x = s.copy x) →
        steadyRun T n u = some w → ∀ x, x ≠ v → w.idx x = t.idx x ∧ w.copy x = t.copy x := by
  have hsafe := reachable_safe hT hs
  obtain ⟨t, ht, _, _, hidx, hcopy, _⟩ :=
    hold_done (T := T) (v := v) n s (fun w _ => hsafe w) (by rw [hsent])
  refine ⟨t, ht, by rw [emit_freq, hcopy, hsent], by rw [emit_dur, hcopy, hsent],
    by rw [emit_idx, hidx], ?_⟩
  intro u w hst hag hw
  exact steadyRun_agree n hst hag ht hw

theorem exampleTables_wellFormed : WellFormed exampleTables := by
  unfold WellFormed sentinelTerminated
  decide

/-- C7 on the example tables: voice 1 starts on its sentinel. -/
theorem exhausted_voice_witness :
    exampleStart.copy Voice.v1 = ⟨R, DONE⟩ ∧
    ∃ t, steadyRun exampleTables 12 exampleStart = some t ∧
      (emit t).freq Voice.v1 = 0 ∧ (emit t).dur Voice.v1 = DONE ∧
      (emit t).idx Voice.v1 = exampleStart.idx Voice.v1 ∧
      ∀ u w, selection (stored u) = selection (stored exampleStart) →
        (∀ x, x ≠ Voice.v1 → u.idx x = exampleStart.idx x ∧ u.copy x = exampleStart.copy x) →
        steadyRun exampleTables 12 u = some w →
        ∀ x, x ≠ Voice.v1 → w.idx x = t.idx x ∧ w.copy x = t.copy x :=
  ⟨rfl, exhausted_voice exampleTables exampleTables_wellFormed exampleStart
    (Reachable.start ⟨1, 0, 0⟩ exampleStart rfl) Voice.v1 rfl 12⟩

/-! ## C8: idle silence -/

theorem idle_step (T : Tables) (d : Int) :
    steady T (idleState d) =
      some (idleState (if d = 25 then 1000 else decay d)) := by
  rw [steady_eq]
  by_cases h : d = 25
  · subst h
    simp [idleState, voiceTable, tableOf, cursorStep, windowStep, rest]
  · simp [idleState, voiceTable, tableOf, cursorStep, windowStep, h]

theorem idle_run (T : Tables) (n : Nat) :
    steadyRun T n (idleState 1000) = some (idleState (1000 - 25 * ((n % 40 : Nat) : Int))) := by
  induction n with
  | zero => rfl
  | succ n ih =>
    rw [steadyRun_succ_right, ih, Option.some_bind, idle_step]
    congr 2
    by_cases h : n % 40 = 39
    · have h1 : (n + 1) % 40 = 0 := by omega
      rw [h, h1]
      norm_num
    · have h1 : (n + 1) % 40 = n % 40 + 1 := by omega
      have h2 : n % 40 < 39 := by omega
      have h3 : (1000 : Int) - 25 * ((n % 40 : Nat) : Int) ≠ 25 := by omega
      rw [if_neg h3, h1, decay_of_range (by simp only [DONE]; omega) (by omega) (by omega)]
      push_cast
      ring

/-- C8. After an iteration in which all three pins read 0 in a playing state (whose
steady part is defined), all three cursors hold the rest note (pitch 0, duration
1000) at position 0 and the window is `(1000, 0, 0)`. For as long as the pins keep
reading 0, at the start of every iteration the stored pins are 0, all positions are
0, the emitted frequencies are `(0, 0, 0)`, `1000 - 25 * (n mod 40)` is left of the
rest note after `n` iterations (it is loaded again every 40 iterations), and the
emitted control value is 250000 = (-0.0457 * 1000 + 70.7) * 10000. -/
theorem idle_silence (T : Tables) (s s1 : State) (hst : steady T s = some s1)
    (hplay : selection (stored s) ≠ Selection.None) :
    ∃ t0, tick T s ⟨0, 0, 0⟩ = some t0 ∧
      (t0.i0, t0.i1, t0.i2) = (0, 0, 0) ∧
      (t0.copy0, t0.copy1, t0.copy2) = (⟨0, 1000⟩, ⟨0, 1000⟩, ⟨0, 1000⟩) ∧
      (t0.num0, t0.num1, t0.num2) = (1000, 0, 0) ∧
      ∀ n : Nat, ∃ t, steadyRun T n t0 = some t ∧ stored t = ⟨0, 0, 0⟩ ∧
        ((emit t).i0, (emit t).i1, (emit t).i2) = (0, 0, 0) ∧
        ((emit t).freq0, (emit t).freq1, (emit t).freq2) = (0, 0, 0) ∧
        ((emit t).dur0, (emit t).dur1, (emit t).dur2) =
          (1000 - 25 * ((n % 40 : Nat) : Int), 1000 - 25 * ((n % 40 : Nat) : Int),
            1000 - 25 * ((n % 40 : Nat) : Int)) ∧
        (emit t).pwm_duty = 250000 ∧
        (emit t).pwm_duty = (-0.0457 * 1000 + 70.7) * 10000 := by
  have hch : s1.in0 ≠ (⟨0, 0, 0⟩ : Reads).r0 ∨ s1.in1 ≠ (⟨0, 0, 0⟩ : Reads).r1 ∨
      s1.in2 ≠ (⟨0, 0, 0⟩ : Reads).r2 := by
    obtain ⟨e0, e1, e2⟩ := steady_stored hst
    rw [e0, e1, e2]
    by_contra hno
    simp only [not_or, not_not] at hno
    exact hplay ((selection_none_iff (stored s)).mpr hno)
  have htick : tick T s ⟨0, 0, 0⟩ = some (idleState 1000) := by
    unfold tick
    rw [hst]
    exact readSwitches_idle hch rfl
  refine ⟨idleState 1000, htick, rfl, rfl, rfl, ?_⟩
  intro n
  refine ⟨_, idle_run T n, rfl, rfl, rfl, rfl, ?_, ?_⟩
  · simp only [emit, running_dur, idleState, if_true]
    norm_num [pwm_duty]
  · simp only [emit, running_dur, idleState, if_true]
    norm_num [pwm_duty]

/-- C8 on the example tables: the pin is released right after startup. -/
theorem idle_silence_witness :
    steady exampleTables exampleStart = some { exampleStart with copy0 := ⟨A4, 225⟩ } ∧
    selection (stored exampleStart) ≠ Selection.None ∧
    ∃ t0, tick exampleTables exampleStart ⟨0, 0, 0⟩ = some t0 ∧
      (t0.i0, t0.i1, t0.i2) = (0, 0, 0) ∧
      (t0.copy0, t0.copy1, t0.copy2) = (⟨0, 1000⟩, ⟨0, 1000⟩, ⟨0, 1000⟩) ∧
      (t0.num0, t0.num1, t0.num2) = (1000, 0, 0) ∧
      ∀ n : Nat, ∃ t, steadyRun exampleTables n t0 = some t ∧ stored t = ⟨0, 0, 0⟩ ∧
        ((emit t).i0, (emit t).i1, (emit t).i2) = (0, 0, 0) ∧
        ((emit t).freq0, (emit t).freq1, (emit t).freq2) = (0, 0, 0) ∧
        ((emit t).dur0, (emit t).dur1, (emit t).dur2) =
          (1000 - 25 * ((n % 40 : Nat) : Int), 1000 - 25 * ((n % 40 : Nat) : Int),
            1000 - 25 * ((n % 40 : Nat) : Int)) ∧
        (emit t).pwm_duty = 250000 ∧
        (emit t).pwm_duty = (-0.0457 * 1000 + 70.7) * 10000 :=
  ⟨by decide, by decide,
    idle_silence exampleTables exampleStart { exampleStart with copy0 := ⟨A4, 225⟩ }
      (by decide) (by decide)⟩

/-! ## C9: only voice 0 drives the control value -/

theorem scoreOf_voice0 {T U : Tables} (hb : U.bach0 = T.bach0) (hc : U.canon0 = T.canon0)
    (hs : U.sleigh0 = T.sleigh0) {X : Selection} {a b c a1 b1 c1 : List Note}
    (h : scoreOf T X = some (a, b, c)) (h1 : scoreOf U X = some (a1, b1, c1)) : a1 = a := by
  cases X <;> simp only [scoreOf, Option.some.injEq, Prod.mk.injEq] at h h1
  · cases h
  · rw [← h.1, ← h1.1, hb]
  · rw [← h.1, ← h1.1, hc]
  · rw [← h.1, ← h1.1, hs]

theorem voiceTable_voice0 {T U : Tables} (hb : U.bach0 = T.bach0) (hc : U.canon0 = T.canon0)
    (hs : U.sleigh0 = T.sleigh0) {s u : State} (hst : stored u = stored s) :
    voiceTable U u Voice.v0 = voiceTable T s Voice.v0 := by
  simp only [stored, Reads.mk.injEq] at hst
  simp only [voiceTable, tableOf, hst.1, hst.2.1, hst.2.2, hb, hc, hs]

theorem sameVoice0_fresh (r : Reads) (n0 n1 n2 m1 m2 : Note) :
    SameVoice0 (freshState r n0 n1 n2) (freshState r n0 m1 m2) :=
  ⟨rfl, rfl, rfl, rfl, rfl, rfl⟩

theorem sameVoice0_pwm {s u : State} (h : SameVoice0 s u) :
    (emit u).pwm_duty = (emit s).pwm_duty := by
  obtain ⟨_, h0, _, a, b, c⟩ := h
  simp only [emit, running_dur, h0, a, b, c]

theorem sameVoice0_steady {T U : Tables} (hb : U.bach0 = T.bach0) (hc : U.canon0 = T.canon0)
    (hs : U.sleigh0 = T.sleigh0) {s u t w : State} (h : SameVoice0 s u)
    (ht : steady T s = some t) (hw : steady U u = some w) : SameVoice0 t w := by
  obtain ⟨hst, h0, hcopy, a, b, c⟩ := h
  have htab := voiceTable_voice0 hb hc hs hst
  have h1 := steady_voice ht Voice.v0
  have h2 := steady_voice hw Voice.v0
  have e1 : u.idx Voice.v0 = s.idx Voice.v0 := h0
  have e2 : u.copy Voice.v0 = s.copy Voice.v0 := hcopy
  rw [htab, e1, e2, h1] at h2
  simp only [Option.some.injEq, Prod.mk.injEq] at h2
  have hi : w.i0 = t.i0 := h2.1.symm
  have hcp : w.copy0 = t.copy0 := h2.2.symm
  have w1 := steady_window ht
  have w2 := steady_window hw
  rw [htab, h0, hcopy, hcp, a, b, c, ← w1] at w2
  simp only [Prod.mk.injEq] at w2
  exact ⟨by rw [stored_steady hw, stored_steady ht, hst], hi, hcp, w2.1, w2.2.1, w2.2.2⟩

theorem sameVoice0_tick {T U : Tables} (hT : WellFormed T) (hU : WellFormed U)
    (hb : U.bach0 = T.bach0) (hc : U.canon0 = T.canon0) (hs : U.sleigh0 = T.sleigh0)
    {s u t w : State} (h : SameVoice0 s u) (r : Reads)
    (ht : tick T s r = some t) (hw : tick U u r = some w) : SameVoice0 t w := by
  unfold tick at ht hw
  simp only [Option.bind_eq_some] at ht hw
  obtain ⟨s1, hs1, ht1⟩ := ht
  obtain ⟨u1, hu1, hw1⟩ := hw
  have h1 := sameVoice0_steady hb hc hs h hs1 hu1
  have hst := h1.1
  simp only [stored, Reads.mk.injEq] at hst
  by_cases hch : s1.in0 ≠ r.r0 ∨ s1.in1 ≠ r.r1 ∨ s1.in2 ≠ r.r2
  · have hch1 : u1.in0 ≠ r.r0 ∨ u1.in1 ≠ r.r1 ∨ u1.in2 ≠ r.r2 := by
      rw [hst.1, hst.2.1, hst.2.2]
      exact hch
    rcases scoreOf_cases T (selection r) with ⟨hn, _⟩ | ⟨a, b, c, hX⟩
    · rw [readSwitches_idle hch hn] at ht1
      rw [readSwitches_idle hch1 hn] at hw1
      cases ht1
      cases hw1
      exact sameVoice0_fresh r _ _ _ _ _
    · rcases scoreOf_cases U (selection r) with ⟨hn, _⟩ | ⟨a1, b1, c1, hX1⟩
      · rw [hn] at hX
        cases hX
      · obtain ⟨n0, n1, n2, e0, e1, e2, _⟩ := fresh_defined hT hX
        obtain ⟨m0, m1, m2, f0, f1, f2, _⟩ := fresh_defined hU hX1
        rw [readSwitches_changed hch hX e0 e1 e2] at ht1
        rw [readSwitches_changed hch1 hX1 f0 f1 f2] at hw1
        cases ht1
        cases hw1
        rw [scoreOf_voice0 hb hc hs hX hX1, e0] at f0
        cases f0
        exact sameVoice0_fresh r _ _ _ _ _
  · simp only [not_or, not_not] at hch
    rw [readSwitches_same hch.1.symm hch.2.1.symm hch.2.2.symm] at ht1
    rw [readSwitches_same (by rw [hst.1]; exact hch.1.symm) (by rw [hst.2.1]; exact hch.2.1.symm)
      (by rw [hst.2.2]; exact hch.2.2.symm)] at hw1
    cases ht1
    cases hw1
    exact h1

theorem sameVoice0_loop {T U : Tables} (hT : WellFormed T) (hU : WellFormed U)
    (hb : U.bach0 = T.bach0) (hc : U.canon0 = T.canon0) (hs : U.sleigh0 = T.sleigh0)
    (rs : List Reads) :
    ∀ {s u : State}, StateSafe T s → StateSafe U u → SameVoice0 s u →
      ∃ os os1, loop T s rs = some os ∧ loop U u rs = some os1 ∧
        os.map Output.pwm_duty = os1.map Output.pwm_duty := by
  induction rs with
  | nil =>
    intro s u _ _ _
    exact ⟨[], [], rfl, rfl, rfl⟩
  | cons r rs ih =>
    intro s u hs1 hu1 h
    obtain ⟨t, ht, htsafe⟩ := tick_safe hT hs1 r
    obtain ⟨w, hw, hwsafe⟩ := tick_safe hU hu1 r
    obtain ⟨os, os1, e, e1, hmap⟩ := ih htsafe hwsafe (sameVoice0_tick hT hU hb hc hs h r ht hw)
    refine ⟨emit s :: os, emit u :: os1, ?_, ?_, ?_⟩
    · simp [loop, ht, e]
    · simp [loop, hw, e1]
    · simp only [List.map_cons, hmap, sameVoice0_pwm h]

theorem waitForInput_selection {rs rs1 : List Reads} {r : Reads}
    (h : waitForInput rs = some (r, rs1)) : selection r ≠ Selection.None := by
  induction rs with
  | nil => cases h
  | cons x xs ih =>
    unfold waitForInput at h
    by_cases hz : x.r0 = 0 ∧ x.r1 = 0 ∧ x.r2 = 0
    · rw [if_pos hz] at h
      exact ih h
    · rw [if_neg hz] at h
      simp only [Option.some.injEq, Prod.mk.injEq] at h
      rw [← h.1]
      intro hn
      exact hz ((selection_none_iff x).mp hn)

/-- C9. For two sets of tables that are both well-formed (every array ends with its
sentinel) and have the same three voice-0 arrays, and for any list of pin reads, both
runs of `main` are defined and emit the same control values `pwm_duty`, iteration by
iteration, whatever the voice-1 and voice-2 arrays are. -/
theorem only_voice0_drives_control (T U : Tables) (hT : WellFormed T) (hU : WellFormed U)
    (hb : U.bach0 = T.bach0) (hc : U.canon0 = T.canon0) (hs : U.sleigh0 = T.sleigh0)
    (rs : List Reads) :
    ∃ os os1, run T rs = some os ∧ run U rs = some os1 ∧ os.length = os1.length ∧
      os.map Output.pwm_duty = os1.map Output.pwm_duty := by
  unfold run
  cases hwait : waitForInput rs with
  | none => exact ⟨[], [], rfl, rfl, rfl, rfl⟩
  | some x =>
    obtain ⟨r, rs1⟩ := x
    have hsel := waitForInput_selection hwait
    rcases scoreOf_cases T (selection r) with ⟨hn, _⟩ | ⟨a, b, c, hX⟩
    · exact absurd hn hsel
    rcases scoreOf_cases U (selection r) with ⟨hn, _⟩ | ⟨a1, b1, c1, hX1⟩
    · exact absurd hn hsel
    obtain ⟨n0, n1, n2, e0, e1, e2, hsafe⟩ := fresh_defined hT hX
    obtain ⟨m0, m1, m2, f0, f1, f2, hsafe1⟩ := fresh_defined hU hX1
    have hst := startup_fresh hX e0 e1 e2
    have hst1 := startup_fresh hX1 f0 f1 f2
    rw [scoreOf_voice0 hb hc hs hX hX1, e0] at f0
    cases f0
    obtain ⟨os, os1, h1, h2, hmap⟩ :=
      sameVoice0_loop hT hU hb hc hs rs1 hsafe hsafe1 (sameVoice0_fresh r n0 n1 n2 m1 m2)
    refine ⟨os, os1, ?_, ?_, ?_, hmap⟩
    · simp only [hst, Option.some_bind]
      exact h1
    · simp only [hst1, Option.some_bind]
      exact h2
    · have := congrArg List.length hmap
      simpa using this

theorem exampleTablesAlt_wellFormed : WellFormed exampleTablesAlt := by
  unfold WellFormed sentinelTerminated
  decide

/-- C9 on the example tables and a variant with other voice-1 and voice-2 arrays. -/
theorem only_voice0_drives_control_witness :
    WellFormed exampleTables ∧ WellFormed exampleTablesAlt ∧
    exampleTablesAlt.bach1 ≠ exampleTables.bach1 ∧
    ∃ os os1, run exampleTables exampleReads = some os ∧
      run exampleTablesAlt exampleReads = some os1 ∧ os.length = os1.length ∧
      os.map Output.pwm_duty = os1.map Output.pwm_duty :=
  ⟨exampleTables_wellFormed, exampleTablesAlt_wellFormed, by decide,
    only_voice0_drives_control exampleTables exampleTablesAlt exampleTables_wellFormed
      exampleTablesAlt_wellFormed rfl rfl rfl exampleReads⟩

/-! ## C10: the duration of one chunk -/

theorem totalDelay_playCycles (d : Int) (n : Nat) :
    totalDelay (playCycles d n) = 2 * (n : Int) * d := by
  induction n with
  | zero => simp [playCycles, totalDelay]
  | succ n ih =>
    simp only [playCycles, totalDelay, ih]
    push_cast
    ring

theorem totalDelay_playChord (f1 f2 f3 : Int) :
    totalDelay (playChord f1 f2 f3) = totalDelay (playNote f3 25) := by
  simp [playChord, totalDelay]

theorem totalDelay_playNote_pos {freq dur : Int} (h : 0 < freq) :
    totalDelay (playNote freq dur) =
      2 * (((Int.tdiv (wrapInt (dur * freq)) 1000).toNat : Nat) : Int) * Int.tdiv 500000 freq := by
  unfold playNote
  rw [if_pos h]
  exact totalDelay_playCycles _ _

/-- In the range where `25 * freq` does not overflow, the chunk lasts
`2 * (freq / 40) * (500000 / freq)` microseconds. -/
theorem totalDelay_chunk {freq : Int} (h : 0 < freq) (hr : 25 * freq < 2147483648) :
    totalDelay (playNote freq 25) = 2 * (freq / 40) * (500000 / freq) := by
  have e1 : Int.tdiv (25 * freq) 1000 = freq / 40 := by
    have : Int.tdiv (25 * freq) 1000 = 25 * freq / 1000 :=
      Int.tdiv_eq_ediv (by omega) (by decide)
    rw [this]
    omega
  have e2 : Int.tdiv 500000 freq = 500000 / freq := Int.tdiv_eq_ediv (by decide) (by omega)
  have h2 : 0 ≤ freq / 40 := by omega
  rw [totalDelay_playNote_pos h, wrapInt_of_range (by omega) hr, e1, e2,
    Int.toNat_of_nonneg h2]

theorem chunk_le {freq : Int} (h : 0 < freq) : totalDelay (playNote freq 25) ≤ 25000 := by
  by_cases hr : 25 * freq < 2147483648
  · rw [totalDelay_chunk h hr]
    have h1 : freq / 40 * 40 ≤ freq := Int.ediv_mul_le _ (by decide)
    have h2 : 500000 / freq * freq ≤ 500000 := Int.ediv_mul_le _ (by omega)
    have h3 : 0 ≤ freq / 40 := by omega
    have h4 : 0 ≤ 500000 / freq := Int.ediv_nonneg (by decide) (by omega)
    nlinarith [mul_le_mul_of_nonneg_right h1 h4, mul_nonneg h3 h4]
  · have e2 : Int.tdiv 500000 freq = 0 := by
      have : Int.tdiv 500000 freq = 500000 / freq := Int.tdiv_eq_ediv (by decide) (by omega)
      rw [this]
      exact Int.ediv_eq_zero_of_lt (by decide) (by omega)
    rw [totalDelay_playNote_pos h, e2]
    simp

theorem chunk_exact_iff {freq : Int} (h : 0 < freq) (hr : 25 * freq < 2147483648) :
    totalDelay (playNote freq 25) = 25000 ↔ 40 ∣ freq ∧ freq ∣ 500000 := by
  rw [totalDelay_chunk h hr]
  have h1 : freq / 40 * 40 ≤ freq := Int.ediv_mul_le _ (by decide)
  have h2 : 500000 / freq * freq ≤ 500000 := Int.ediv_mul_le _ (by omega)
  have h3 : 0 ≤ freq / 40 := by omega
  have h4 : 0 ≤ 500000 / freq := Int.ediv_nonneg (by decide) (by omega)
  constructor
  · intro e
    have h5 := mul_le_mul_of_nonneg_right h1 h4
    have e1 : 500000 / freq * freq = 500000 := by nlinarith
    have hD : 500000 / freq ≠ 0 := by
      intro hz
      rw [hz] at e
      norm_num at e
    have e2 : (freq - freq / 40 * 40) * (500000 / freq) = 0 := by nlinarith
    have e3 : freq - freq / 40 * 40 = 0 := by
      rcases mul_eq_zero.mp e2 with a | a
      · exact a
      · exact absurd a hD
    exact ⟨⟨freq / 40, by linarith⟩, ⟨500000 / freq, by linarith⟩⟩
  · rintro ⟨⟨k, hk⟩, ⟨m, hm⟩⟩
    have c1 : freq / 40 = k := by omega
    have c2 : 500000 / freq = m := by
      rw [hm]
      exact Int.mul_ediv_cancel_left m (by omega)
    rw [c1, c2]
    have : (500000 : Int) = 40 * k * m := by rw [hm, hk]
    linarith

/-- C10, as stated, fails: at 440 Hz the chunk issues 11 periods of 2 * 1136
microseconds, 24992 in all, and at 1 Hz it issues no delay at all. -/
theorem chunk_not_exact :
    totalDelay (playNote 440 25) = 24992 ∧ totalDelay (playChord 0 0 440) ≠ 25000 ∧
      totalDelay (playChord 0 0 1) = 0 := by
  decide

/-- C10, amended. For every frequency `freq ≥ 0` the delays of `playChord` are those
of `playNote(freq, 25)`. For `freq = 0` they add up to exactly 25000 microseconds.
For `freq > 0` they never exceed 25000; where `25 * freq` does not overflow the sum is
`2 * ((25*freq)/1000) * (500000/freq)` with C division, and it equals 25000 exactly
when 40 divides `freq` and `freq` divides 500000. -/
theorem chunk_duration (f1 f2 freq : Int) (h : 0 ≤ freq) :
    totalDelay (playChord f1 f2 freq) = totalDelay (playNote freq 25) ∧
    (freq = 0 → totalDelay (playChord f1 f2 freq) = 25000) ∧
    (0 < freq → totalDelay (playChord f1 f2 freq) ≤ 25000) ∧
    (0 < freq → 25 * freq < 2147483648 →
      totalDelay (playChord f1 f2 freq) =
        2 * Int.tdiv (25 * freq) 1000 * Int.tdiv 500000 freq ∧
      (totalDelay (playChord f1 f2 freq) = 25000 ↔ 40 ∣ freq ∧ freq ∣ 500000)) := by
  rw [totalDelay_playChord]
  refine ⟨rfl, ?_, fun hp => chunk_le hp, ?_⟩
  · intro h0
    subst h0
    decide
  · intro hp hr
    refine ⟨?_, chunk_exact_iff hp hr⟩
    rw [totalDelay_chunk hp hr, Int.tdiv_eq_ediv (by omega) (by decide),
      Int.tdiv_eq_ediv (a := 500000) (by decide) (by omega)]
    have h1 : 25 * freq / 1000 = freq / 40 := by omega
    rw [h1]

/-- C10 amended, at concert pitch. -/
theorem chunk_duration_witness :
    (0 : Int) ≤ 440 ∧
    (totalDelay (playChord 0 0 440) = totalDelay (playNote 440 25) ∧
    ((440 : Int) = 0 → totalDelay (playChord 0 0 440) = 25000) ∧
    ((0 : Int) < 440 → totalDelay (playChord 0 0 440) ≤ 25000) ∧
    ((0 : Int) < 440 → (25 : Int) * 440 < 2147483648 →
      totalDelay (playChord 0 0 440) =
        2 * Int.tdiv (25 * 440) 1000 * Int.tdiv 500000 440 ∧
      (totalDelay (playChord 0 0 440) = 25000 ↔ (40 : Int) ∣ 440 ∧ (440 : Int) ∣ 500000))) :=
  ⟨by decide, chunk_duration 0 0 440 (by decide)⟩

/-! ## C11: switch precedence -/

theorem voiceTable_of_score {T : Tables} {s : State} {a b c : List Note}
    (hX : scoreOf T (selection (stored s)) = some (a, b, c)) (v : Voice) :
    voiceTable T s v = some (voiceOf (a, b, c) v) := by
  rw [voiceTable_eq_scoreOf, hX]
  rfl

/-- A steady iteration only consults the arrays of the stored selection. -/
theorem steady_same_score {T U : Tables} {s : State}
    (h : scoreOf U (selection (stored s)) = scoreOf T (selection (stored s))) :
    steady U s = steady T s := by
  have hv : ∀ v, voiceTable U s v = voiceTable T s v := by
    intro v
    rw [voiceTable_eq_scoreOf, voiceTable_eq_scoreOf, h]
  rw [steady_eq, steady_eq, hv Voice.v0, hv Voice.v1, hv Voice.v2]

theorem steadyRun_same_score {T U : Tables} (n : Nat) :
    ∀ {s : State}, scoreOf U (selection (stored s)) = scoreOf T (selection (stored s)) →
      steadyRun U n s = steadyRun T n s := by
  induction n with
  | zero => intro s _; rfl
  | succ n ih =>
    intro s h
    rw [steadyRun_succ, steadyRun_succ, steady_same_score h]
    cases ht : steady T s with
    | none => rfl
    | some t =>
      simp only [Option.some_bind]
      apply ih
      rw [stored_steady ht]
      exact h

/-- What a rollover reads: the next entry of the voice's array in the stored
selection. -/
theorem rollover_reads {T : Tables} {s t : State} {tbl : List Note} {v : Voice}
    (ht : steady T s = some t) (hsel : voiceTable T s v = some tbl) (hd : (s.copy v).d = 25) :
    t.idx v = s.idx v + 1 ∧ readNote tbl (s.idx v + 1) = some (t.copy v) := by
  have h := steady_voice ht v
  rw [hsel] at h
  simp only [cursorStep, hd, if_true, Option.map_eq_some'] at h
  obtain ⟨n, hn, he⟩ := h
  simp only [Prod.mk.injEq] at he
  exact ⟨he.1.symm, by rw [hn, he.2]⟩

/-- What a window update stores: the duration of the note voice 0 has just loaded. -/
theorem window_newest {T : Tables} {s t : State} {tbl : List Note}
    (ht : steady T s = some t) (hsel : voiceTable T s Voice.v0 = some tbl)
    (hd : s.copy0.d = 25) :
    (s.i0 = 0 → (t.num0, t.num1, t.num2) = (s.num0, t.copy0.d, s.num2)) ∧
    (s.i0 = 1 → (t.num0, t.num1, t.num2) = (s.num0, s.num1, t.copy0.d)) ∧
    (2 ≤ s.i0 → (t.num0, t.num1, t.num2) = (s.num1, s.num2, t.copy0.d)) := by
  have h := steady_window ht
  rw [hsel, hd] at h
  refine ⟨fun e => ?_, fun e => ?_, fun e => ?_⟩
  · rw [h, e]
    simp [windowStep]
  · rw [h, e]
    simp [windowStep]
  · rw [h]
    have e1 : s.i0 ≠ 0 := by omega
    have e2 : s.i0 ≠ 1 := by omega
    simp [windowStep, e1, e2]

/-- C11. When the sample `r` selects a score with arrays `a`, `b`, `c` (first notes
`n0`, `n1`, `n2`), the selected score is that of the highest-priority high pin (pin 0
over pin 1 over pin 2); startup and every reset on `r` load the first notes of that
score; and in every state that stores `r`, each rollover of each voice reads the
next entry of that same score's array, each window update stores the duration of the
entry voice 0 has just read, the stored sample is kept, and any number of steady
iterations gives the same result on any other tables with the same selected score:
no array of another score is consulted between resets. -/
theorem switch_precedence (T : Tables) (r : Reads) (a b c : List Note) (n0 n1 n2 : Note)
    (hX : scoreOf T (selection r) = some (a, b, c))
    (h0 : readNote a 0 = some n0) (h1 : readNote b 0 = some n1) (h2 : readNote c 0 = some n2) :
    (r.r0 ≠ 0 → (a, b, c) = (T.bach0, T.bach1, T.bach2)) ∧
    (r.r0 = 0 → r.r1 ≠ 0 → (a, b, c) = (T.canon0, T.canon1, T.canon2)) ∧
    (r.r0 = 0 → r.r1 = 0 → (a, b, c) = (T.sleigh0, T.sleigh1, T.sleigh2) ∧ r.r2 ≠ 0) ∧
    startup T r = some (freshState r n0 n1 n2) ∧
    (∀ s, (s.in0 ≠ r.r0 ∨ s.in1 ≠ r.r1 ∨ s.in2 ≠ r.r2) →
      readSwitches T r s = some (freshState r n0 n1 n2)) ∧
    (∀ s t, stored s = r → steady T s = some t →
      stored t = r ∧
      (∀ v, (s.copy v).d = 25 →
        t.idx v = s.idx v + 1 ∧ readNote (voiceOf (a, b, c) v) (s.idx v + 1) = some (t.copy v)) ∧
      (s.copy0.d = 25 →
        (s.i0 = 0 → (t.num0, t.num1, t.num2) = (s.num0, t.copy0.d, s.num2)) ∧
        (s.i0 = 1 → (t.num0, t.num1, t.num2) = (s.num0, s.num1, t.copy0.d)) ∧
        (2 ≤ s.i0 → (t.num0, t.num1, t.num2) = (s.num1, s.num2, t.copy0.d)))) ∧
    (∀ s U n, stored s = r → scoreOf U (selection r) = some (a, b, c) →
      steadyRun U n s = steadyRun T n s) := by
  refine ⟨?_, ?_, ?_, startup_fresh hX h0 h1 h2,
    fun s hch => readSwitches_changed hch hX h0 h1 h2, ?_, ?_⟩
  · intro x
    simp only [selection, x, ne_eq, not_false_eq_true, if_true, scoreOf, Option.some.injEq] at hX
    exact hX.symm
  · intro x y
    simp only [selection, x, y, ne_eq, not_true_eq_false, not_false_eq_true, if_true, if_false,
      scoreOf, Option.some.injEq] at hX
    exact hX.symm
  · intro x y
    by_cases z : r.r2 = 0
    · simp only [selection, x, y, z, ne_eq, not_true_eq_false, if_false, scoreOf] at hX
      cases hX
    · simp only [selection, x, y, z, ne_eq, not_true_eq_false, not_false_eq_true, if_true,
        if_false, scoreOf, Option.some.injEq] at hX
      exact ⟨hX.symm, z⟩
  · intro s t hs ht
    have hXs : scoreOf T (selection (stored s)) = some (a, b, c) := by rw [hs]; exact hX
    refine ⟨by rw [stored_steady ht, hs], ?_, ?_⟩
    · intro v hd
      exact rollover_reads ht (voiceTable_of_score hXs v) hd
    · intro hd
      exact window_newest ht (voiceTable_of_score hXs Voice.v0) hd
  · intro s U n hs hU
    apply steadyRun_same_score
    rw [hs, hU, hX]

/-- C11 on the example tables with all three pins high: the first score plays. -/
theorem switch_precedence_witness :
    scoreOf exampleTables (selection ⟨1, 1, 1⟩) =
      some (exampleTables.bach0, exampleTables.bach1, exampleTables.bach2) ∧
    startup exampleTables ⟨1, 1, 1⟩ = some (freshState ⟨1, 1, 1⟩ ⟨A4, Q⟩ ⟨R, DONE⟩ ⟨R, DONE⟩) ∧
    ∀ s t, stored s = ⟨1, 1, 1⟩ → steady exampleTables s = some t →
      stored t = ⟨1, 1, 1⟩ ∧
      ∀ v, (s.copy v).d = 25 → t.idx v = s.idx v + 1 ∧
        readNote (voiceOf (exampleTables.bach0, exampleTables.bach1, exampleTables.bach2) v)
          (s.idx v + 1) = some (t.copy v) :=
  have h := switch_precedence exampleTables ⟨1, 1, 1⟩ exampleTables.bach0 exampleTables.bach1
    exampleTables.bach2 ⟨A4, Q⟩ ⟨R, DONE⟩ ⟨R, DONE⟩ rfl rfl rfl rfl
  ⟨rfl, h.2.2.2.1, fun s t hs ht => ⟨(h.2.2.2.2.2.1 s t hs ht).1, (h.2.2.2.2.2.1 s t hs ht).2.1⟩⟩

/-! ## Invariants of reachable states -/

theorem startup_inv {T : Tables} {r : Reads} {s : State} (h : startup T r = some s) :
    ∃ a b c n0 n1 n2, scoreOf T (selection r) = some (a, b, c) ∧ readNote a 0 = some n0 ∧
      readNote b 0 = some n1 ∧ readNote c 0 = some n2 ∧ s = freshState r n0 n1 n2 := by
  unfold startup at h
  simp only [Option.map_eq_some'] at h
  obtain ⟨n, hn, rfl⟩ := h
  unfold selection
  by_cases x : r.r0 = 0 <;> by_cases y : r.r1 = 0 <;> by_cases z : r.r2 = 0 <;>
    simp only [x, y, z, ne_eq, not_true_eq_false, not_false_eq_true, if_true, if_false,
      Option.bind_eq_some, Option.map_eq_some'] at hn ⊢ <;>
    first
    | (cases hn; done)
    | (obtain ⟨n0, e0, n1, e1, n2, e2, rfl⟩ := hn
       exact ⟨_, _, _, n0, n1, n2, rfl, e0, e1, e2, by simp [freshState, x, y, z]⟩)

theorem readSwitches_inv {T : Tables} {r : Reads} {s t : State}
    (h : readSwitches T r s = some t) :
    (t = s ∧ stored s = r) ∨ (selection r = Selection.None ∧ t = freshState r rest rest rest) ∨
    ∃ a b c n0 n1 n2, scoreOf T (selection r) = some (a, b, c) ∧ readNote a 0 = some n0 ∧
      readNote b 0 = some n1 ∧ readNote c 0 = some n2 ∧ t = freshState r n0 n1 n2 := by
  by_cases hch : s.in0 ≠ r.r0 ∨ s.in1 ≠ r.r1 ∨ s.in2 ≠ r.r2
  · right
    rcases scoreOf_cases T (selection r) with ⟨hn, _⟩ | ⟨a, b, c, hX⟩
    · left
      rw [readSwitches_idle hch hn] at h
      exact ⟨hn, by cases h; rfl⟩
    · right
      unfold readSwitches at h
      rw [if_pos hch] at h
      simp only [Option.map_eq_some'] at h
      obtain ⟨n, hn, rfl⟩ := h
      unfold selection at hX ⊢
      by_cases x : r.r0 = 0 <;> by_cases y : r.r1 = 0 <;> by_cases z : r.r2 = 0 <;>
        simp only [x, y, z, ne_eq, not_true_eq_false, not_false_eq_true, if_true, if_false,
          Option.bind_eq_some, Option.map_eq_some', scoreOf] at hn hX ⊢ <;>
        first
        | (cases hX; done)
        | (obtain ⟨n0, e0, n1, e1, n2, e2, rfl⟩ := hn
           exact ⟨_, _, _, n0, n1, n2, rfl, e0, e1, e2, by simp [freshState, x, y, z]⟩)
  · left
    simp only [not_or, not_not] at hch
    rw [readSwitches_same hch.1.symm hch.2.1.symm hch.2.2.symm] at h
    cases h
    exact ⟨rfl, by simp [stored, hch.1, hch.2.1, hch.2.2]⟩

/-- A property that holds after every fresh selection, in the idle state after a
release, and is kept by the steady part, holds in every reachable state. -/
theorem reachable_induction {T : Tables} {P : State → Prop}
    (hfresh : ∀ r a b c n0 n1 n2, scoreOf T (selection r) = some (a, b, c) →
      readNote a 0 = some n0 → readNote b 0 = some n1 → readNote c 0 = some n2 →
      P (freshState r n0 n1 n2))
    (hidle : ∀ r, selection r = Selection.None → P (freshState r rest rest rest))
    (hsteady : ∀ s t, P s → steady T s = some t → P t) :
    ∀ s, Reachable T s → P s := by
  intro s hs
  induction hs with
  | start r s h =>
    obtain ⟨a, b, c, n0, n1, n2, hX, e0, e1, e2, rfl⟩ := startup_inv h
    exact hfresh r a b c n0 n1 n2 hX e0 e1 e2
  | step s r t _ ht ih =>
    unfold tick at ht
    simp only [Option.bind_eq_some] at ht
    obtain ⟨s1, hs1, ht1⟩ := ht
    rcases readSwitches_inv ht1 with ⟨rfl, _⟩ | ⟨hn, rfl⟩ | ⟨a, b, c, n0, n1, n2, hX, e0, e1, e2, rfl⟩
    · exact hsteady s t ih hs1
    · exact hidle r hn
    · exact hfresh r a b c n0 n1 n2 hX e0 e1 e2

theorem reachable_steadyRun {T : Tables} (n : Nat) :
    ∀ {s t : State}, Reachable T s → steadyRun T n s = some t → Reachable T t := by
  induction n with
  | zero =>
    intro s t hs h
    cases h
    exact hs
  | succ n ih =>
    intro s t hs h
    unfold steadyRun at h
    simp only [Option.bind_eq_some] at h
    obtain ⟨u, hu, ht⟩ := h
    exact ih (Reachable.step s (stored s) u hs hu) ht

/-! ## C12: the window is a FIFO of the last three voice-0 durations -/

theorem steady_no_rollover {T : Tables} {s t : State} (ht : steady T s = some t)
    (hd : s.copy0.d ≠ 25) :
    t.i0 = s.i0 ∧ (t.num0, t.num1, t.num2) = (s.num0, s.num1, s.num2) := by
  have h := steady_voice ht Voice.v0
  have hw := steady_window ht
  have hd1 : (s.copy Voice.v0).d ≠ 25 := hd
  simp only [cursorStep, hd1, if_false, Option.some.injEq, Prod.mk.injEq] at h
  simp only [windowStep, hd, if_false] at hw
  exact ⟨h.1.symm, hw⟩

theorem windowFifo_steady {T : Tables} {s t : State} {a b c : List Note}
    (hX : scoreOf T (selection (stored s)) = some (a, b, c)) (hw : WindowFifo a s)
    (ht : steady T s = some t) : WindowFifo a t := by
  by_cases hd : s.copy0.d = 25
  · obtain ⟨hi, hr⟩ := rollover_reads ht (voiceTable_of_score hX Voice.v0) hd
    obtain ⟨w0, w1, w2⟩ := window_newest ht (voiceTable_of_score hX Voice.v0) hd
    have hi1 : t.i0 = s.i0 + 1 := hi
    have hr1 : durAt a (s.i0 + 1) = some t.copy0.d := by
      have : readNote a (s.i0 + 1) = some t.copy0 := hr
      simp [durAt, this]
    obtain ⟨f0, f1, f2⟩ := hw
    rcases Nat.lt_or_ge s.i0 1 with h0 | h1
    · have e : s.i0 = 0 := by omega
      have := w0 e
      simp only [Prod.mk.injEq] at this
      rw [e] at hi1 hr1
      refine ⟨fun x => by omega, fun _ => ?_, fun x => by omega⟩
      rw [this.1, this.2.1]
      exact ⟨f0 e, hr1⟩
    · rcases Nat.lt_or_ge s.i0 2 with h2 | h3
      · have e : s.i0 = 1 := by omega
        have := w1 e
        simp only [Prod.mk.injEq] at this
        rw [e] at hi1 hr1
        refine ⟨fun x => by omega, fun x => by omega, fun _ => ?_⟩
        rw [this.1, this.2.1, this.2.2, hi1]
        exact ⟨(f1 e).1, (f1 e).2, hr1⟩
      · have := w2 h3
        simp only [Prod.mk.injEq] at this
        refine ⟨fun x => by omega, fun x => by omega, fun _ => ?_⟩
        rw [this.1, this.2.1, this.2.2, hi1]
        have e1 : s.i0 + 1 - 2 = s.i0 - 1 := by omega
        have e2 : s.i0 + 1 - 1 = s.i0 := by omega
        rw [e1, e2]
        exact ⟨(f2 h3).2.1, (f2 h3).2.2, hr1⟩
  · obtain ⟨hi, hn⟩ := steady_no_rollover ht hd
    simp only [Prod.mk.injEq] at hn
    unfold WindowFifo
    rw [hi, hn.1, hn.2.1, hn.2.2]
    exact hw

theorem windowFifo_reachable {T : Tables} {s : State} (hs : Reachable T s) :
    ∀ a b c, scoreOf T (selection (stored s)) = some (a, b, c) → WindowFifo a s := by
  refine reachable_induction (T := T)
    (P := fun s => ∀ a b c, scoreOf T (selection (stored s)) = some (a, b, c) → WindowFifo a s)
    ?_ ?_ ?_ s hs
  · intro r a b c n0 n1 n2 hX e0 _ _ a1 b1 c1 hX1
    have hst : stored (freshState r n0 n1 n2) = r := rfl
    rw [hst, hX] at hX1
    simp only [Option.some.injEq, Prod.mk.injEq] at hX1
    rw [← hX1.1]
    refine ⟨fun _ => ?_, fun x => ?_, fun x => ?_⟩
    · simp [durAt, e0, freshState]
    · exact absurd x (by simp [freshState])
    · exact absurd x (by simp [freshState])
  · intro r hn a b c hX
    have hst : stored (freshState r rest rest rest) = r := rfl
    rw [hst, hn] at hX
    cases hX
  · intro s t ih ht a b c hX
    rw [stored_steady ht] at hX
    exact windowFifo_steady hX (ih a b c hX) ht

/-- C12. In every reachable state in which a score is selected, with `a` the
voice-0 array of that score and `i0` the voice-0 position: at `i0 = 0` the window
entry `num0` is the duration of entry 0 and the average is that duration; at
`i0 = 1` the window holds the durations of entries 0 and 1 and the average is their
sum over 2; at `i0 ≥ 2` the window `(num0, num1, num2)` holds the durations of the
entries `i0 - 2`, `i0 - 1`, `i0`, in this order, and the average is their sum over 3.
The sums are `int` sums: the averages are stated for sums that an `int` can hold. -/
theorem window_fifo (T : Tables) (s : State) (a b c : List Note) (hs : Reachable T s)
    (hX : scoreOf T (selection (stored s)) = some (a, b, c)) :
    (s.i0 = 0 → ∃ d0, durAt a 0 = some d0 ∧ s.num0 = d0 ∧ running_dur s = (d0 : ℚ)) ∧
    (s.i0 = 1 → ∃ d0 d1, durAt a 0 = some d0 ∧ durAt a 1 = some d1 ∧
      (s.num0, s.num1) = (d0, d1) ∧
      (inIntRange (d0 + d1) → running_dur s = ((d0 : ℚ) + d1) / 2)) ∧
    (2 ≤ s.i0 → ∃ d0 d1 d2, durAt a (s.i0 - 2) = some d0 ∧ durAt a (s.i0 - 1) = some d1 ∧
      durAt a s.i0 = some d2 ∧ (s.num0, s.num1, s.num2) = (d0, d1, d2) ∧
      (inIntRange (d0 + d1) → inIntRange (d0 + d1 + d2) →
        running_dur s = ((d0 : ℚ) + d1 + d2) / 3)) := by
  obtain ⟨f0, f1, f2⟩ := windowFifo_reachable hs a b c hX
  refine ⟨fun e => ⟨s.num0, f0 e, rfl, ?_⟩, fun e => ⟨s.num0, s.num1, (f1 e).1, (f1 e).2, rfl, ?_⟩,
    fun e => ⟨s.num0, s.num1, s.num2, (f2 e).1, (f2 e).2.1, (f2 e).2.2, rfl, ?_⟩⟩
  · simp [running_dur, e]
  · intro hr
    simp only [running_dur, e, one_ne_zero, if_false, if_true]
    rw [wrapInt_of_range hr.1 hr.2]
    push_cast
    rfl
  · intro hr1 hr2
    have e0 : s.i0 ≠ 0 := by omega
    have e1 : s.i0 ≠ 1 := by omega
    simp only [running_dur, e0, e1, if_false]
    rw [wrapInt_of_range hr1.1 hr1.2, wrapInt_of_range hr2.1 hr2.2]
    push_cast
    rfl

theorem exampleMid_reachable : Reachable exampleTables exampleMid :=
  reachable_steadyRun 15 (Reachable.start ⟨0, 1, 0⟩ exampleStartB rfl) (by decide)

/-- C12 on the example tables: the second score after 15 iterations, at position 2. -/
theorem window_fifo_witness :
    scoreOf exampleTables (selection (stored exampleMid)) =
      some (exampleTables.canon0, exampleTables.canon1, exampleTables.canon2) ∧
    (2 ≤ exampleMid.i0 → ∃ d0 d1 d2, durAt exampleTables.canon0 (exampleMid.i0 - 2) = some d0 ∧
      durAt exampleTables.canon0 (exampleMid.i0 - 1) = some d1 ∧
      durAt exampleTables.canon0 exampleMid.i0 = some d2 ∧
      (exampleMid.num0, exampleMid.num1, exampleMid.num2) = (d0, d1, d2) ∧
      (inIntRange (d0 + d1) → inIntRange (d0 + d1 + d2) →
        running_dur exampleMid = ((d0 : ℚ) + d1 + d2) / 3)) :=
  ⟨rfl, (window_fifo exampleTables exampleMid exampleTables.canon0 exampleTables.canon1
    exampleTables.canon2 exampleMid_reachable rfl).2.2⟩

/-! ## C13: the remaining duration -/

theorem readNote_mem {tbl : List Note} {k : Nat} {n : Note} (h : readNote tbl k = some n) :
    n ∈ tbl := by
  unfold readNote at h
  by_cases hk : k < 2147483648
  · rw [if_pos hk] at h
    exact List.getElem?_mem h
  · rw [if_neg hk] at h
    cases h

theorem goodDurations_scoreOf {T : Tables} (hT : GoodDurations T) {X : Selection}
    {a b c : List Note} (hX : scoreOf T X = some (a, b, c)) :
    GoodTable a ∧ GoodTable b ∧ GoodTable c := by
  obtain ⟨a0, a1, a2, b0, b1, b2, c0, c1, c2⟩ := hT
  cases X <;> simp only [scoreOf, Option.some.injEq, Prod.mk.injEq] at hX
  · cases hX
  · obtain ⟨rfl, rfl, rfl⟩ := hX
    exact ⟨a0, a1, a2⟩
  · obtain ⟨rfl, rfl, rfl⟩ := hX
    exact ⟨b0, b1, b2⟩
  · obtain ⟨rfl, rfl, rfl⟩ := hX
    exact ⟨c0, c1, c2⟩

theorem goodDurations_voiceTable {T : Tables} (hT : GoodDurations T) {s : State} {v : Voice}
    {tbl : List Note} (h : voiceTable T s v = some tbl) : GoodTable tbl := by
  rcases scoreOf_cases T (selection (stored s)) with ⟨_, hn⟩ | ⟨a, b, c, hX⟩
  · rw [voiceTable_eq_scoreOf, hn] at h
    cases h
  · rw [voiceTable_of_score hX] at h
    cases h
    obtain ⟨ga, gb, gc⟩ := goodDurations_scoreOf hT hX
    cases v
    · exact ga
    · exact gb
    · exact gc

theorem goodDur_rest : GoodDur rest.d := by
  right
  simp only [rest]
  decide

theorem goodDur_decay {d : Int} (h : GoodDur d) (h25 : d ≠ 25) : GoodDur (decay d) := by
  rcases h with h | ⟨hp, hdvd, hlt⟩
  · left
    simp [decay, h]
  · right
    have hne : d ≠ DONE := by
      intro e
      rw [e] at hdvd
      exact absurd hdvd (by decide)
    rw [decay_of_range hne (by omega) hlt]
    omega

theorem goodDur_cursorStep {tbl : Option (List Note)} {i j : Nat} {c x : Note}
    (htbl : ∀ t, tbl = some t → GoodTable t) (hc : GoodDur c.d)
    (h : cursorStep tbl i c = some (j, x)) : GoodDur x.d := by
  unfold cursorStep at h
  by_cases hd : c.d = 25
  · rw [if_pos hd] at h
    cases tbl with
    | none =>
      simp only [Option.some.injEq, Prod.mk.injEq] at h
      rw [← h.2]
      exact goodDur_rest
    | some t =>
      simp only [Option.map_eq_some', Prod.mk.injEq] at h
      obtain ⟨n, hn, _, rfl⟩ := h
      exact htbl t rfl n (readNote_mem hn)
  · rw [if_neg hd] at h
    simp only [Option.some.injEq, Prod.mk.injEq] at h
    rw [← h.2]
    exact goodDur_decay hc hd

theorem goodDur_reachable {T : Tables} (hT : GoodDurations T) {s : State}
    (hs : Reachable T s) : ∀ v, GoodDur (s.copy v).d := by
  refine reachable_induction (T := T) (P := fun s => ∀ v, GoodDur (s.copy v).d) ?_ ?_ ?_ s hs
  · intro r a b c n0 n1 n2 hX e0 e1 e2 v
    obtain ⟨ga, gb, gc⟩ := goodDurations_scoreOf hT hX
    cases v
    · exact ga n0 (readNote_mem e0)
    · exact gb n1 (readNote_mem e1)
    · exact gc n2 (readNote_mem e2)
  · intro r _ v
    cases v <;> exact goodDur_rest
  · intro s t ih ht v
    exact goodDur_cursorStep (fun tbl h => goodDurations_voiceTable hT h) (ih v)
      (steady_voice ht v)

/-- What a rollover does without a selected score: back to position 0 on the rest
note. -/
theorem rollover_idle {T : Tables} {s t : State} {v : Voice}
    (ht : steady T s = some t) (hsel : voiceTable T s v = none) (hd : (s.copy v).d = 25) :
    t.idx v = 0 ∧ t.copy v = rest := by
  have h := steady_voice ht v
  rw [hsel] at h
  simp only [cursorStep, hd, if_true, Option.some.injEq, Prod.mk.injEq] at h
  exact ⟨h.1.symm, h.2.symm⟩

/-- C13. On tables in which every duration is `DONE` or a positive multiple of 25
(within the range of `int`), in every reachable state the remaining duration of each
voice is `DONE` or a positive multiple of 25, hence never 0 or negative at the start
of an iteration: a voice with 25 left, whose remaining reaches 0 in the iteration,
has its position advanced and its note reloaded from its array in that same
iteration (or, with no score selected, is put back on the rest note). -/
theorem remaining_invariant (T : Tables) (hT : GoodDurations T) (s : State)
    (hs : Reachable T s) (v : Voice) :
    ((s.copy v).d = DONE ∨ (0 < (s.copy v).d ∧ 25 ∣ (s.copy v).d)) ∧
    0 < (s.copy v).d ∧
    ∀ t, steady T s = some t → (s.copy v).d = 25 →
      decay (s.copy v).d = 0 ∧
      (∀ tbl, voiceTable T s v = some tbl →
        t.idx v = s.idx v + 1 ∧ readNote tbl (s.idx v + 1) = some (t.copy v)) ∧
      (voiceTable T s v = none → t.idx v = 0 ∧ t.copy v = rest) := by
  have h := goodDur_reachable hT hs v
  refine ⟨?_, ?_, ?_⟩
  · rcases h with h | ⟨hp, hdvd, _⟩
    · exact Or.inl h
    · exact Or.inr ⟨hp, hdvd⟩
  · rcases h with h | ⟨hp, _, _⟩
    · rw [h]
      decide
    · exact hp
  · intro t ht hd
    refine ⟨by rw [hd]; decide, fun tbl hsel => rollover_reads ht hsel hd,
      fun hsel => rollover_idle ht hsel hd⟩

theorem exampleTables_goodDurations : GoodDurations exampleTables := by
  unfold GoodDurations GoodTable GoodDur
  decide

/-- C13 on the example tables, for voice 0 at position 2 of the second score. -/
theorem remaining_invariant_witness :
    GoodDurations exampleTables ∧ Reachable exampleTables exampleMid ∧
    ((exampleMid.copy Voice.v0).d = DONE ∨
      (0 < (exampleMid.copy Voice.v0).d ∧ 25 ∣ (exampleMid.copy Voice.v0).d)) ∧
    0 < (exampleMid.copy Voice.v0).d :=
  ⟨exampleTables_goodDurations, exampleMid_reachable,
    (remaining_invariant exampleTables exampleTables_goodDurations exampleMid
      exampleMid_reachable Voice.v0).1,
    (remaining_invariant exampleTables exampleTables_goodDurations exampleMid
      exampleMid_reachable Voice.v0).2.1⟩

/-! ## C14: the loop is total on terminated tables -/

theorem firstDone_lt {tbl : List Note} (h : doneTerminated tbl) : firstDone tbl < tbl.length := by
  obtain ⟨hlast, _⟩ := h
  simp only [Option.map_eq_some'] at hlast
  obtain ⟨n, hn, hd⟩ := hlast
  apply List.findIdx_lt_length_of_exists
  exact ⟨n, List.mem_of_getLast?_eq_some hn, by simp [hd]⟩

theorem firstDone_done {tbl : List Note} (h : firstDone tbl < tbl.length) :
    ∃ n, tbl[firstDone tbl]? = some n ∧ n.d = DONE := by
  refine ⟨tbl[firstDone tbl], List.getElem?_eq_getElem h, ?_⟩
  have := @List.findIdx_getElem Note (fun n : Note => decide (n.d = DONE)) tbl h
  simpa using this

theorem firstDone_first {tbl : List Note} {k : Nat} {n : Note} (hk : k < firstDone tbl)
    (hn : tbl[k]? = some n) : n.d ≠ DONE := by
  have hlen : k < tbl.length := (List.getElem?_eq_some.mp hn).1
  have := @List.not_of_lt_findIdx Note (fun n : Note => decide (n.d = DONE)) tbl k hk
  have e : tbl[k] = n := (List.getElem?_eq_some.mp hn).2
  rw [e] at this
  simpa using this

theorem withinTable_safe {tbl : List Note} {i : Nat} {c : Note} (h : WithinTable tbl i c) :
    VoiceSafe (some tbl) i c := by
  intro t ht
  cases ht
  obtain ⟨hi, hlen, hk, hend⟩ := h
  exact ⟨firstDone tbl, hi, hk, firstDone_done hlen, hend⟩

theorem allWithin_safe {T : Tables} {s : State} (h : AllWithin T s) : StateSafe T s := by
  intro v
  cases hv : voiceTable T s v with
  | none =>
    intro t ht
    cases ht
  | some tbl => exact withinTable_safe (h v tbl hv)

theorem withinTable_first {tbl : List Note} (h : doneTerminated tbl) :
    ∃ n, readNote tbl 0 = some n ∧ WithinTable tbl 0 n := by
  have hlt := firstDone_lt h
  have hpos : 0 < tbl.length := by omega
  refine ⟨tbl[0], by simp [readNote, List.getElem?_eq_getElem hpos], Nat.zero_le _, hlt,
    by have := h.2; omega, ?_⟩
  intro e
  obtain ⟨n, hn, hd⟩ := firstDone_done hlt
  rw [← e, List.getElem?_eq_getElem hpos] at hn
  simp only [Option.some.injEq] at hn
  rw [hn, hd]

theorem withinTable_cursorStep {tbl : List Note} {i j : Nat} {c x : Note}
    (h : WithinTable tbl i c) (hx : cursorStep (some tbl) i c = some (j, x)) :
    WithinTable tbl j x := by
  obtain ⟨hi, hlen, hk, hend⟩ := h
  unfold cursorStep at hx
  by_cases hd : c.d = 25
  · rw [if_pos hd] at hx
    simp only [Option.map_eq_some', Prod.mk.injEq] at hx
    obtain ⟨n, hn, rfl, rfl⟩ := hx
    have hne : i ≠ firstDone tbl := by
      intro e
      have := hend e
      rw [hd] at this
      exact absurd this (by decide)
    refine ⟨by omega, hlen, hk, ?_⟩
    intro e
    obtain ⟨m, hm, hmd⟩ := firstDone_done hlen
    unfold readNote at hn
    rw [if_pos (by omega), e, hm] at hn
    cases hn
    exact hmd
  · rw [if_neg hd] at hx
    simp only [Option.some.injEq, Prod.mk.injEq] at hx
    obtain ⟨rfl, rfl⟩ := hx
    refine ⟨hi, hlen, hk, ?_⟩
    intro e
    simp [decay, hend e]

theorem allWithin_steady {T : Tables} {s t : State} (h : AllWithin T s)
    (ht : steady T s = some t) : AllWithin T t := by
  intro v tbl hv
  rw [voiceTable_steady ht] at hv
  have hx := steady_voice ht v
  rw [hv] at hx
  exact withinTable_cursorStep (h v tbl hv) hx

theorem terminated_scoreOf {T : Tables} (hT : Terminated T) {X : Selection}
    {a b c : List Note} (hX : scoreOf T X = some (a, b, c)) :
    doneTerminated a ∧ doneTerminated b ∧ doneTerminated c := by
  obtain ⟨a0, a1, a2, b0, b1, b2, c0, c1, c2⟩ := hT
  cases X <;> simp only [scoreOf, Option.some.injEq, Prod.mk.injEq] at hX
  · cases hX
  · obtain ⟨rfl, rfl, rfl⟩ := hX
    exact ⟨a0, a1, a2⟩
  · obtain ⟨rfl, rfl, rfl⟩ := hX
    exact ⟨b0, b1, b2⟩
  · obtain ⟨rfl, rfl, rfl⟩ := hX
    exact ⟨c0, c1, c2⟩

theorem allWithin_fresh {T : Tables} (hT : Terminated T) {r : Reads} {a b c : List Note}
    {n0 n1 n2 : Note} (hX : scoreOf T (selection r) = some (a, b, c))
    (e0 : readNote a 0 = some n0) (e1 : readNote b 0 = some n1) (e2 : readNote c 0 = some n2) :
    AllWithin T (freshState r n0 n1 n2) := by
  obtain ⟨ha, hb, hc⟩ := terminated_scoreOf hT hX
  obtain ⟨m0, f0, w0⟩ := withinTable_first ha
  obtain ⟨m1, f1, w1⟩ := withinTable_first hb
  obtain ⟨m2, f2, w2⟩ := withinTable_first hc
  rw [e0] at f0
  rw [e1] at f1
  rw [e2] at f2
  cases f0
  cases f1
  cases f2
  intro v tbl hv
  have hst : stored (freshState r n0 n1 n2) = r := rfl
  rw [voiceTable_eq_scoreOf, hst, hX] at hv
  simp only [Option.map_some', Option.some.injEq] at hv
  subst hv
  cases v
  · exact w0
  · exact w1
  · exact w2

theorem allWithin_idle (T : Tables) {r : Reads} (hn : selection r = Selection.None)
    (n0 n1 n2 : Note) : AllWithin T (freshState r n0 n1 n2) := by
  intro v tbl hv
  have hst : stored (freshState r n0 n1 n2) = r := rfl
  rw [voiceTable_eq_scoreOf, hst, hn] at hv
  cases hv

theorem allWithin_reachable {T : Tables} (hT : Terminated T) {s : State}
    (hs : Reachable T s) : AllWithin T s := by
  refine reachable_induction (T := T) (P := AllWithin T) ?_ ?_ ?_ s hs
  · intro r a b c n0 n1 n2 hX e0 e1 e2
    exact allWithin_fresh hT hX e0 e1 e2
  · intro r hn
    exact allWithin_idle T hn _ _ _
  · intro s t ih ht
    exact allWithin_steady ih ht

/-- On terminated tables the first notes of a selected score can be read. -/
theorem terminated_first {T : Tables} (hT : Terminated T) {X : Selection} {a b c : List Note}
    (hX : scoreOf T X = some (a, b, c)) :
    ∃ n0 n1 n2, readNote a 0 = some n0 ∧ readNote b 0 = some n1 ∧ readNote c 0 = some n2 := by
  obtain ⟨ha, hb, hc⟩ := terminated_scoreOf hT hX
  obtain ⟨n0, f0, _⟩ := withinTable_first ha
  obtain ⟨n1, f1, _⟩ := withinTable_first hb
  obtain ⟨n2, f2, _⟩ := withinTable_first hc
  exact ⟨n0, n1, n2, f0, f1, f2⟩

theorem tick_total {T : Tables} (hT : Terminated T) {s : State} (hs : AllWithin T s)
    (r : Reads) : ∃ t, tick T s r = some t ∧ AllWithin T t := by
  obtain ⟨s1, hs1, _⟩ := steady_safe (allWithin_safe hs)
  have hw1 := allWithin_steady hs hs1
  unfold tick
  rw [hs1]
  simp only [Option.some_bind]
  by_cases hch : s1.in0 ≠ r.r0 ∨ s1.in1 ≠ r.r1 ∨ s1.in2 ≠ r.r2
  · rcases scoreOf_cases T (selection r) with ⟨hn, _⟩ | ⟨a, b, c, hX⟩
    · exact ⟨_, readSwitches_idle hch hn, allWithin_idle T hn _ _ _⟩
    · obtain ⟨n0, n1, n2, e0, e1, e2⟩ := terminated_first hT hX
      exact ⟨_, readSwitches_changed hch hX e0 e1 e2, allWithin_fresh hT hX e0 e1 e2⟩
  · simp only [not_or, not_not] at hch
    exact ⟨s1, readSwitches_same hch.1.symm hch.2.1.symm hch.2.2.symm, hw1⟩

theorem startup_total {T : Tables} (hT : Terminated T) {r : Reads}
    (h : selection r ≠ Selection.None) : ∃ s, startup T r = some s ∧ AllWithin T s := by
  rcases scoreOf_cases T (selection r) with ⟨hn, _⟩ | ⟨a, b, c, hX⟩
  · exact absurd hn h
  · obtain ⟨n0, n1, n2, e0, e1, e2⟩ := terminated_first hT hX
    exact ⟨_, startup_fresh hX e0 e1 e2, allWithin_fresh hT hX e0 e1 e2⟩

theorem loop_defined {T : Tables} (hT : Terminated T) (rs : List Reads) :
    ∀ {s : State}, AllWithin T s → ∃ os, loop T s rs = some os ∧ os.length = rs.length := by
  induction rs with
  | nil =>
    intro s _
    exact ⟨[], rfl, rfl⟩
  | cons r rs ih =>
    intro s hs
    obtain ⟨t, ht, hw⟩ := tick_total hT hs r
    obtain ⟨os, hos, hlen⟩ := ih hw
    exact ⟨emit s :: os, by simp [loop, ht, hos], by simp [hlen]⟩

/-- C14. If every array of every score ends with a note of duration `DONE` (and has
only representable subscripts), then startup is defined for every sample with a pin
high; in every reachable state each position is at most the position of the first
`DONE` note of its voice in the selected score, that position is inside the array,
the entry a rollover would read exists, and the next iteration is defined whatever
the pins read; and the whole run is defined for every list of samples, with one
emission per sample after the wait. -/
theorem loop_total (T : Tables) (hT : Terminated T) :
    (∀ r, selection r ≠ Selection.None → ∃ s, startup T r = some s) ∧
    (∀ s, Reachable T s →
      (∀ v tbl, voiceTable T s v = some tbl →
        s.idx v ≤ firstDone tbl ∧ firstDone tbl < tbl.length ∧
        (∃ n, readNote tbl (firstDone tbl) = some n ∧ n.d = DONE) ∧
        (∀ k n, k < firstDone tbl → readNote tbl k = some n → n.d ≠ DONE) ∧
        ((s.copy v).d = 25 → ∃ n, readNote tbl (s.idx v + 1) = some n)) ∧
      (∀ r, ∃ t, tick T s r = some t)) ∧
    (∀ rs, ∃ os, run T rs = some os) := by
  refine ⟨?_, ?_, ?_⟩
  · intro r hr
    obtain ⟨s, hs, _⟩ := startup_total hT hr
    exact ⟨s, hs⟩
  · intro s hs
    have hw := allWithin_reachable hT hs
    refine ⟨?_, ?_⟩
    · intro v tbl hv
      obtain ⟨hi, hlen, hk, hend⟩ := hw v tbl hv
      obtain ⟨n, hn, hd⟩ := firstDone_done hlen
      refine ⟨hi, hlen, ⟨n, by simp [readNote, hk, hn], hd⟩, ?_, ?_⟩
      · intro k m hk1 hm
        unfold readNote at hm
        rw [if_pos (by omega)] at hm
        exact firstDone_first hk1 hm
      · intro h25
        have hne : s.idx v ≠ firstDone tbl := by
          intro e
          have := hend e
          rw [h25] at this
          exact absurd this (by decide)
        have hlt : s.idx v + 1 < tbl.length := by omega
        exact ⟨tbl[s.idx v + 1], by
          unfold readNote
          rw [if_pos (by omega), List.getElem?_eq_getElem hlt]⟩
    · intro r
      obtain ⟨t, ht, _⟩ := tick_total hT hw r
      exact ⟨t, ht⟩
  · intro rs
    unfold run
    cases hwait : waitForInput rs with
    | none => exact ⟨[], rfl⟩
    | some x =>
      obtain ⟨r, rs1⟩ := x
      obtain ⟨s, hs, hw⟩ := startup_total hT (waitForInput_selection hwait)
      obtain ⟨os, hos, _⟩ := loop_defined hT rs1 hw
      exact ⟨os, by simp [hs, hos]⟩

theorem exampleTables_terminated : Terminated exampleTables := by
  unfold Terminated doneTerminated
  decide

/-- C14 on the example tables. -/
theorem loop_total_witness :
    Terminated exampleTables ∧
    (∀ r, selection r ≠ Selection.None → ∃ s, startup exampleTables r = some s) ∧
    (∀ r, ∃ t, tick exampleTables exampleMid r = some t) ∧
    (∀ rs, ∃ os, run exampleTables rs = some os) :=
  ⟨exampleTables_terminated, (loop_total exampleTables exampleTables_terminated).1,
    ((loop_total exampleTables exampleTables_terminated).2.1 exampleMid exampleMid_reachable).2,
    (loop_total exampleTables exampleTables_terminated).2.2⟩

/-! ## C15: the sentinel enters the average -/

/-- C15. When voice 0 has 25 left while a score is selected and the next entry of its
array is a note `n` of duration `DONE` (the sentinel), the iteration stores `DONE`
(42) in the window as its newest entry, exactly as a note duration would be; at every
later iteration with unchanged pins the position, the window and hence the average
stay as they are, and the average contains the 42. With 250 and 125 in the window
before, the average is (250 + 125 + 42) / 3 = 139. -/
theorem sentinel_enters_average (T : Tables) (s : State) (tbl : List Note) (n : Note)
    (hsel : voiceTable T s Voice.v0 = some tbl) (hd : s.copy0.d = 25)
    (hnext : readNote tbl (s.i0 + 1) = some n) (hdone : n.d = DONE)
    (hoff : SafeOff T s Voice.v0) (k : Nat) :
    ∃ t, steadyRun T (k + 1) s = some t ∧ t.i0 = s.i0 + 1 ∧ t.copy0 = n ∧
      (s.i0 = 0 → (t.num0, t.num1, t.num2) = (s.num0, DONE, s.num2) ∧
        running_dur t = ((wrapInt (s.num0 + DONE) : Int) : ℚ) / 2) ∧
      (s.i0 = 1 → (t.num0, t.num1, t.num2) = (s.num0, s.num1, DONE) ∧
        running_dur t = ((wrapInt (wrapInt (s.num0 + s.num1) + DONE) : Int) : ℚ) / 3) ∧
      (2 ≤ s.i0 → (t.num0, t.num1, t.num2) = (s.num1, s.num2, DONE) ∧
        running_dur t = ((wrapInt (wrapInt (s.num1 + s.num2) + DONE) : Int) : ℚ) / 3) ∧
      (s.i0 = 1 → s.num0 = 250 → s.num1 = 125 →
        running_dur t = 139 ∧ (emit t).pwm_duty = pwm_duty ((250 + 125 + 42) / 3)) := by
  obtain ⟨u, hu, huoff, _, huidx, hucopy, _⟩ :=
    rollover hoff hsel (show (s.copy Voice.v0).d = 25 from hd) hnext
  have hucopy0 : u.copy0 = n := hucopy
  obtain ⟨w0, w1, w2⟩ := window_newest hu hsel hd
  rw [hucopy0, hdone] at w0 w1 w2
  obtain ⟨t, ht, _, _, hidx, hcopy, hwin⟩ :=
    hold_done (T := T) (v := Voice.v0) k u huoff (by rw [hucopy, hdone])
  obtain ⟨a, b, c⟩ := hwin rfl
  have hi : t.i0 = s.i0 + 1 := by
    have e1 : t.i0 = u.i0 := hidx
    have e2 : u.i0 = s.i0 + 1 := huidx
    rw [e1, e2]
  have hrun : steadyRun T (k + 1) s = some t := by
    rw [steadyRun_succ, hu]
    exact ht
  have hc : t.copy0 = n := by
    have e1 : t.copy0 = u.copy0 := hcopy
    rw [e1, hucopy0]
  have key1 : s.i0 = 1 → (t.num0, t.num1, t.num2) = (s.num0, s.num1, DONE) ∧
      running_dur t = ((wrapInt (wrapInt (s.num0 + s.num1) + DONE) : Int) : ℚ) / 3 := by
    intro e
    have := w1 e
    simp only [Prod.mk.injEq] at this
    have e2 : t.i0 = 2 := by rw [hi, e]
    refine ⟨by rw [a, b, c, this.1, this.2.1, this.2.2], ?_⟩
    simp [running_dur, e2, a, b, c, this.1, this.2.1, this.2.2]
  refine ⟨t, hrun, hi, hc, ?_, key1, ?_, ?_⟩
  · intro e
    have := w0 e
    simp only [Prod.mk.injEq] at this
    have e1 : t.i0 = 1 := by rw [hi, e]
    refine ⟨by rw [a, b, c, this.1, this.2.1, this.2.2], ?_⟩
    simp [running_dur, e1, a, b, this.1, this.2.1]
  · intro e
    have := w2 e
    simp only [Prod.mk.injEq] at this
    have e0 : t.i0 ≠ 0 := by omega
    have e1 : t.i0 ≠ 1 := by omega
    refine ⟨by rw [a, b, c, this.1, this.2.1, this.2.2], ?_⟩
    simp [running_dur, e0, e1, a, b, c, this.1, this.2.1, this.2.2]
  · intro e x y
    have hr : running_dur t = 139 := by
      rw [(key1 e).2, x, y]
      norm_num [wrapInt]
    refine ⟨hr, ?_⟩
    show pwm_duty (running_dur t) = _
    rw [hr]
    norm_num

theorem exampleLast_safe : StateSafe exampleTables exampleLast := by
  intro v
  cases v
  · intro t ht
    simp only [voiceTable, tableOf, exampleLast, exampleTables] at ht
    cases ht
    exact ⟨2, by decide, by decide, ⟨⟨R, DONE⟩, rfl, rfl⟩, by decide⟩
  · exact voiceSafe_at_done (by decide) rfl rfl
  · exact voiceSafe_at_done (by decide) rfl rfl

/-- C15 on the example tables: the first score, one iteration before its voice 0
loads the sentinel; from the next iteration on the average is 139. -/
theorem sentinel_enters_average_witness :
    steadyRun exampleTables 14 exampleStart = some exampleLast ∧
    ∀ k : Nat, ∃ t, steadyRun exampleTables (k + 1) exampleLast = some t ∧
      (t.num0, t.num1, t.num2) = (250, 125, 42) ∧ running_dur t = 139 ∧
      (emit t).pwm_duty = 643477 := by
  refine ⟨by decide, fun k => ?_⟩
  obtain ⟨t, ht, _, _, _, h1, _, h3⟩ :=
    sentinel_enters_average exampleTables exampleLast exampleTables.bach0 ⟨R, DONE⟩ rfl rfl rfl
      rfl (fun w _ => exampleLast_safe w) k
  refine ⟨t, ht, (h1 rfl).1, (h3 rfl rfl rfl).1, ?_⟩
  rw [(h3 rfl rfl rfl).2]
  norm_num [pwm_duty]

/-! ## C16: the range of the control value -/

theorem boundedDurations_scoreOf {T : Tables} (hT : BoundedDurations T) {X : Selection}
    {a b c : List Note} (hX : scoreOf T X = some (a, b, c)) : BoundedTable a := by
  obtain ⟨a0, _, _, b0, _, _, c0, _, _⟩ := hT
  cases X <;> simp only [scoreOf, Option.some.injEq, Prod.mk.injEq] at hX
  · cases hX
  · rw [← hX.1]
    exact a0
  · rw [← hX.1]
    exact b0
  · rw [← hX.1]
    exact c0

theorem windowBounded_steady {T : Tables} (hT : BoundedDurations T) {s t : State}
    (hw : WindowBounded s) (ht : steady T s = some t) : WindowBounded t := by
  obtain ⟨b0, b1, b2⟩ := hw
  by_cases hd : s.copy0.d = 25
  · rcases scoreOf_cases T (selection (stored s)) with ⟨_, hn⟩ | ⟨a, b, c, hX⟩
    · have hsel : voiceTable T s Voice.v0 = none := by rw [voiceTable_eq_scoreOf, hn]; rfl
      have h := steady_window ht
      rw [hsel, hd] at h
      rcases Nat.lt_or_ge s.i0 2 with h2 | h3
      · have e : s.i0 = 0 ∨ s.i0 = 1 := by omega
        rcases e with e | e <;> simp [windowStep, e] at h <;>
          exact ⟨by rw [h.1]; exact b0, by rw [h.2.1]; exact b1, by rw [h.2.2]; exact b2⟩
      · have e0 : s.i0 ≠ 0 := by omega
        have e1 : s.i0 ≠ 1 := by omega
        simp [windowStep, e0, e1] at h
        exact ⟨by rw [h.1]; exact b1, by rw [h.2.1]; exact b2, by rw [h.2.2]; exact b2⟩
    · have hsel := voiceTable_of_score hX Voice.v0
      obtain ⟨_, hr⟩ := rollover_reads ht hsel hd
      have hnew : 0 ≤ t.copy0.d ∧ t.copy0.d ≤ 1000 :=
        boundedDurations_scoreOf hT hX _ (readNote_mem hr)
      obtain ⟨w0, w1, w2⟩ := window_newest ht hsel hd
      rcases Nat.lt_or_ge s.i0 1 with h0 | h1
      · have := w0 (by omega)
        simp only [Prod.mk.injEq] at this
        exact ⟨by rw [this.1]; exact b0, by rw [this.2.1]; exact hnew, by rw [this.2.2]; exact b2⟩
      · rcases Nat.lt_or_ge s.i0 2 with h2 | h3
        · have := w1 (by omega)
          simp only [Prod.mk.injEq] at this
          exact ⟨by rw [this.1]; exact b0, by rw [this.2.1]; exact b1,
            by rw [this.2.2]; exact hnew⟩
        · have := w2 h3
          simp only [Prod.mk.injEq] at this
          exact ⟨by rw [this.1]; exact b1, by rw [this.2.1]; exact b2,
            by rw [this.2.2]; exact hnew⟩
  · obtain ⟨_, hn⟩ := steady_no_rollover ht hd
    simp only [Prod.mk.injEq] at hn
    exact ⟨by rw [hn.1]; exact b0, by rw [hn.2.1]; exact b1, by rw [hn.2.2]; exact b2⟩

theorem windowBounded_reachable {T : Tables} (hT : BoundedDurations T) {s : State}
    (hs : Reachable T s) : WindowBounded s := by
  refine reachable_induction (T := T) (P := WindowBounded) ?_ ?_ ?_ s hs
  · intro r a b c n0 n1 n2 hX e0 _ _
    have z : (0 : Int) ≤ 0 ∧ (0 : Int) ≤ 1000 := by decide
    exact ⟨boundedDurations_scoreOf hT hX n0 (readNote_mem e0), z, z⟩
  · intro r _
    have z : (0 : Int) ≤ 0 ∧ (0 : Int) ≤ 1000 := by decide
    have w : (0 : Int) ≤ 1000 ∧ (1000 : Int) ≤ 1000 := by decide
    exact ⟨w, z, z⟩
  · intro s t ih ht
    exact windowBounded_steady hT ih ht

theorem running_dur_bounded {s : State} (h : WindowBounded s) :
    0 ≤ running_dur s ∧ running_dur s ≤ 1000 := by
  obtain ⟨⟨a0, a1⟩, ⟨b0, b1⟩, ⟨c0, c1⟩⟩ := h
  unfold running_dur
  by_cases e0 : s.i0 = 0
  · rw [if_pos e0]
    exact ⟨by exact_mod_cast a0, by exact_mod_cast a1⟩
  · rw [if_neg e0]
    by_cases e1 : s.i0 = 1
    · rw [if_pos e1, wrapInt_of_range (by omega) (by omega)]
      have h0 : (0 : ℚ) ≤ (s.num0 + s.num1 : Int) := by exact_mod_cast (by omega : 0 ≤ s.num0 + s.num1)
      have h1 : ((s.num0 + s.num1 : Int) : ℚ) ≤ 2000 := by
        exact_mod_cast (by omega : s.num0 + s.num1 ≤ 2000)
      constructor
      · positivity
      · linarith
    · rw [if_neg e1, wrapInt_of_range (x := s.num0 + s.num1) (by omega) (by omega),
        wrapInt_of_range (by omega) (by omega)]
      have h0 : (0 : ℚ) ≤ (s.num0 + s.num1 + s.num2 : Int) := by
        exact_mod_cast (by omega : 0 ≤ s.num0 + s.num1 + s.num2)
      have h1 : ((s.num0 + s.num1 + s.num2 : Int) : ℚ) ≤ 3000 := by
        exact_mod_cast (by omega : s.num0 + s.num1 + s.num2 ≤ 3000)
      constructor
      · positivity
      · linarith

/-- C16. If every duration in the tables lies between 0 and 1000, then in every
reachable state the running average lies in [0, 1000] and the control value
`(-0.0457 * average + 70.7) * 10000` emitted by the iteration lies between 250000 and
707000, hence within 0..1000000; and the mapping is strictly decreasing. -/
theorem control_range (T : Tables) (hT : BoundedDurations T) (s : State)
    (hs : Reachable T s) :
    (0 ≤ running_dur s ∧ running_dur s ≤ 1000) ∧
    (emit s).pwm_duty = (-0.0457 * running_dur s + 70.7) * 10000 ∧
    (250000 ≤ (emit s).pwm_duty ∧ (emit s).pwm_duty ≤ 707000) ∧
    (0 ≤ (emit s).pwm_duty ∧ (emit s).pwm_duty ≤ 1000000) ∧
    (∀ x y : ℚ, x < y → pwm_duty y < pwm_duty x) := by
  obtain ⟨h0, h1⟩ := running_dur_bounded (windowBounded_reachable hT hs)
  have e : (emit s).pwm_duty = (-0.0457 * running_dur s + 70.7) * 10000 := rfl
  refine ⟨⟨h0, h1⟩, e, ?_, ?_, ?_⟩
  · rw [e]
    constructor <;> norm_num <;> linarith
  · rw [e]
    constructor <;> norm_num <;> linarith
  · intro x y hxy
    unfold pwm_duty
    norm_num
    linarith

theorem exampleTables_bounded : BoundedDurations exampleTables := by
  unfold BoundedDurations BoundedTable
  decide

/-- C16 on the example tables, in the state at position 2 of the second score. -/
theorem control_range_witness :
    BoundedDurations exampleTables ∧ Reachable exampleTables exampleMid ∧
    (0 ≤ running_dur exampleMid ∧ running_dur exampleMid ≤ 1000) ∧
    (250000 ≤ (emit exampleMid).pwm_duty ∧ (emit exampleMid).pwm_duty ≤ 707000) :=
  ⟨exampleTables_bounded, exampleMid_reachable,
    (control_range exampleTables exampleTables_bounded exampleMid exampleMid_reachable).1,
    (control_range exampleTables exampleTables_bounded exampleMid exampleMid_reachable).2.2.1⟩

/-! ## C17: playNote never overruns -/

/-- C17. For every `freq > 0` and `dur ≥ 0` whose product does not overflow, the
delays requested by `playNote(freq, dur)` add up to
`2 * ((dur*freq)/1000) * (500000/freq)` microseconds (C division), which is at most
`dur * 1000`; and for `freq < 40` a 25 ms chunk makes no hardware call at all. -/
theorem playNote_never_overruns (freq dur : Int) (hf : 0 < freq) (hd : 0 ≤ dur)
    (hov : dur * freq < 2147483648) :
    totalDelay (playNote freq dur) =
      2 * Int.tdiv (dur * freq) 1000 * Int.tdiv 500000 freq ∧
    totalDelay (playNote freq dur) ≤ dur * 1000 ∧
    (freq < 40 → playNote freq 25 = [] ∧ totalDelay (playNote freq 25) = 0) := by
  have hnn : 0 ≤ dur * freq := mul_nonneg hd (le_of_lt hf)
  have e1 : Int.tdiv (dur * freq) 1000 = dur * freq / 1000 :=
    Int.tdiv_eq_ediv hnn (by decide)
  have e2 : Int.tdiv 500000 freq = 500000 / freq := Int.tdiv_eq_ediv (by decide) (by omega)
  have hc : 0 ≤ dur * freq / 1000 := Int.ediv_nonneg hnn (by decide)
  have hD : 0 ≤ 500000 / freq := Int.ediv_nonneg (by decide) (by omega)
  have htot : totalDelay (playNote freq dur) = 2 * (dur * freq / 1000) * (500000 / freq) := by
    rw [totalDelay_playNote_pos hf, wrapInt_of_range (by omega) hov, e1, e2,
      Int.toNat_of_nonneg hc]
  refine ⟨by rw [htot, e1, e2], ?_, ?_⟩
  · rw [htot]
    have h1 : dur * freq / 1000 * 1000 ≤ dur * freq := Int.ediv_mul_le _ (by decide)
    have h2 : 500000 / freq * freq ≤ 500000 := Int.ediv_mul_le _ (by omega)
    have h3 := mul_le_mul_of_nonneg_right h1 hD
    have h4 := mul_le_mul_of_nonneg_left h2 hd
    nlinarith
  · intro h40
    have hz : Int.tdiv (wrapInt (25 * freq)) 1000 = 0 := by
      rw [wrapInt_of_range (by omega) (by omega), Int.tdiv_eq_ediv (by omega) (by decide)]
      omega
    have hp : playNote freq 25 = [] := by
      unfold playNote
      rw [if_pos hf]
      simp only [hz]
      rfl
    exact ⟨hp, by rw [hp]; rfl⟩

/-- C17 at 30 Hz for one 25 ms chunk. -/
theorem playNote_never_overruns_witness :
    (0 : Int) < 30 ∧ (0 : Int) ≤ 25 ∧ (25 : Int) * 30 < 2147483648 ∧
    totalDelay (playNote 30 25) ≤ 25 * 1000 ∧
    ((30 : Int) < 40 → playNote 30 25 = [] ∧ totalDelay (playNote 30 25) = 0) :=
  ⟨by decide, by decide, by decide,
    (playNote_never_overruns 30 25 (by decide) (by decide) (by decide)).2.1,
    (playNote_never_overruns 30 25 (by decide) (by decide) (by decide)).2.2⟩

/-! ## C18: malformed durations stall a voice -/

theorem stalled_zero (d : Int) : stalled d 0 = d := by
  unfold stalled
  by_cases hc : 42 ≤ d ∧ (d - 42) % 25 = 0 ∧ d - 42 ≤ 25 * ((0 : Nat) : Int)
  · rw [if_pos hc]
    simp only [DONE]
    omega
  · rw [if_neg hc]
    simp

theorem stalled_ne_25 (d : Int) (h : ¬ (0 < d ∧ 25 ∣ d)) (n : Nat) : stalled d n ≠ 25 := by
  unfold stalled
  by_cases hc : 42 ≤ d ∧ (d - 42) % 25 = 0 ∧ d - 42 ≤ 25 * (n : Int)
  · rw [if_pos hc]
    decide
  · rw [if_neg hc]
    intro e
    apply h
    omega

theorem stalled_succ (d : Int) (n : Nat) : decayZ (stalled d n) = stalled d (n + 1) := by
  unfold stalled decayZ
  by_cases hc : 42 ≤ d ∧ (d - 42) % 25 = 0 ∧ d - 42 ≤ 25 * (n : Int)
  · have hc1 : 42 ≤ d ∧ (d - 42) % 25 = 0 ∧ d - 42 ≤ 25 * ((n + 1 : Nat) : Int) := by
      refine ⟨hc.1, hc.2.1, ?_⟩
      push_cast
      omega
    rw [if_pos hc, if_pos hc1]
    simp
  · rw [if_neg hc]
    by_cases hc1 : 42 ≤ d ∧ (d - 42) % 25 = 0 ∧ d - 42 ≤ 25 * ((n + 1 : Nat) : Int)
    · rw [if_pos hc1]
      have e : d - 25 * (n : Int) = 67 := by
        push_cast at hc1
        omega
      rw [e]
      decide
    · rw [if_neg hc1]
      have hne : d - 25 * (n : Int) ≠ DONE := by
        intro e
        apply hc
        simp only [DONE] at e
        omega
      rw [if_pos hne]
      push_cast
      ring

/-- Over unbounded integers a cursor holding a malformed duration keeps its position
and its pitch, and its remaining duration follows `stalled`. -/
theorem cursorRunZ_stalled (tbl : Option (List Note)) (i : Nat) (p d : Int)
    (h : ¬ (0 < d ∧ 25 ∣ d)) (n : Nat) :
    ∀ m : Nat, cursorRunZ tbl n (i, ⟨p, stalled d m⟩) = some (i, ⟨p, stalled d (m + n)⟩) := by
  induction n with
  | zero => intro m; rfl
  | succ n ih =>
    intro m
    unfold cursorRunZ
    simp only [cursorStepZ, stalled_ne_25 d h m, if_false, Option.some_bind, stalled_succ]
    rw [ih (m + 1)]
    congr 4
    omega

theorem decay_eq_decayZ {d : Int} (h1 : d = DONE ∨ -2147483623 ≤ d) (h2 : d < 2147483648) :
    decay d = decayZ d := by
  unfold decayZ
  by_cases hd : d = DONE
  · simp [decay, hd]
  · rw [if_pos hd]
    rcases h1 with h1 | h1
    · exact absurd h1 hd
    · exact decay_of_range hd h1 h2

theorem stalled_le (d : Int) (n : Nat) (h : d < 2147483648) : stalled d n < 2147483648 := by
  unfold stalled
  by_cases hc : 42 ≤ d ∧ (d - 42) % 25 = 0 ∧ d - 42 ≤ 25 * (n : Int)
  · rw [if_pos hc]
    decide
  · rw [if_neg hc]
    omega

/-- The 32-bit loop follows `stalled` for as long as the decrement does not
overflow. -/
theorem steadyRun_stalled {T : Tables} {v : Voice} (p d : Int) (h : ¬ (0 < d ∧ 25 ∣ d))
    (hr : d < 2147483648) :
    ∀ (n : Nat) (s : State), SafeOff T s v → s.copy v = ⟨p, d⟩ →
      ((42 ≤ d ∧ (d - 42) % 25 = 0) ∨ -2147483648 ≤ d - 25 * (n : Int)) →
      ∃ t, steadyRun T n s = some t ∧ SafeOff T t v ∧ t.idx v = s.idx v ∧
        t.copy v = ⟨p, stalled d n⟩ := by
  intro n
  induction n with
  | zero =>
    intro s hoff hc _
    exact ⟨s, rfl, hoff, rfl, by rw [hc, stalled_zero d]⟩
  | succ n ih =>
    intro s hoff hc hb
    have hb1 : (42 ≤ d ∧ (d - 42) % 25 = 0) ∨ -2147483648 ≤ d - 25 * (n : Int) := by
      rcases hb with hb | hb
      · exact Or.inl hb
      · right
        push_cast at hb
        omega
    obtain ⟨t, ht, htoff, hidx, hcopy⟩ := ih s hoff hc hb1
    have hdec : decay (stalled d n) = stalled d (n + 1) := by
      rw [← stalled_succ]
      apply decay_eq_decayZ _ (stalled_le d n hr)
      unfold stalled
      by_cases hcase : 42 ≤ d ∧ (d - 42) % 25 = 0 ∧ d - 42 ≤ 25 * (n : Int)
      · rw [if_pos hcase]
        exact Or.inl rfl
      · rw [if_neg hcase]
        rcases hb with hb | hb
        · right
          omega
        · right
          push_cast at hb
          omega
    have hx : cursorStep (voiceTable T t v) (t.idx v) (t.copy v) =
        some (t.idx v, ⟨p, stalled d (n + 1)⟩) := by
      unfold cursorStep
      rw [hcopy]
      simp only [stalled_ne_25 d h n, if_false, hdec]
    obtain ⟨u, hu, huoff, _, huidx, hucopy, _⟩ := steady_follow htoff hx
    refine ⟨u, ?_, huoff, by rw [huidx, hidx], hucopy⟩
    rw [steadyRun_succ_right, ht]
    exact hu

/-- C18. A voice whose cursor holds a duration `d` that is not a positive multiple
of 25 never rolls over under unchanged pins. Over unbounded integers, after any
number `n` of iterations its position and pitch are unchanged and its remaining is
never 25: for `d = 42 + 25 k` it is `d - 25 n` up to `n = k` and `DONE` from then on;
for any other `d` it is `d - 25 n`. The 32-bit loop (other voices safe, `d` an `int`
value) does exactly the same at every `n`, for `d = 42 + 25 k` without limit and
otherwise for as long as `d - 25 n` has not left the range of `int`. -/
theorem malformed_duration_stalls (T : Tables) (s : State) (v : Voice) (d : Int)
    (hd : (s.copy v).d = d) (hbad : ¬ (0 < d ∧ 25 ∣ d)) (hr : d < 2147483648)
    (hoff : SafeOff T s v) (n : Nat) :
    (∃ c, cursorRunZ (voiceTable T s v) n (s.idx v, s.copy v) = some (s.idx v, c) ∧
      c.p = (s.copy v).p ∧ c.d ≠ 25 ∧
      (∀ k : Nat, d = 42 + 25 * (k : Int) → c.d = if n ≤ k then d - 25 * (n : Int) else DONE) ∧
      ((∀ k : Nat, d ≠ 42 + 25 * (k : Int)) → c.d = d - 25 * (n : Int))) ∧
    (((∃ k : Nat, d = 42 + 25 * (k : Int)) ∨ -2147483648 ≤ d - 25 * (n : Int)) →
      ∃ t, steadyRun T n s = some t ∧ t.idx v = s.idx v ∧
        cursorRunZ (voiceTable T s v) n (s.idx v, s.copy v) = some (t.idx v, t.copy v)) := by
  have hc : s.copy v = ⟨(s.copy v).p, d⟩ := by rw [← hd]
  have hrun : cursorRunZ (voiceTable T s v) n (s.idx v, s.copy v) =
      some (s.idx v, ⟨(s.copy v).p, stalled d n⟩) := by
    have := cursorRunZ_stalled (voiceTable T s v) (s.idx v) (s.copy v).p d hbad n 0
    rw [stalled_zero d, ← hc, Nat.zero_add] at this
    exact this
  refine ⟨⟨_, hrun, rfl, stalled_ne_25 d hbad n, ?_, ?_⟩, ?_⟩
  · intro k hk
    show stalled d n = _
    unfold stalled
    by_cases hnk : n ≤ k
    · rw [if_pos hnk]
      by_cases e : n = k
      · have hcase : 42 ≤ d ∧ (d - 42) % 25 = 0 ∧ d - 42 ≤ 25 * (n : Int) := by
          subst e
          omega
        rw [if_pos hcase]
        subst e
        simp only [DONE]
        omega
      · have hcase : ¬ (42 ≤ d ∧ (d - 42) % 25 = 0 ∧ d - 42 ≤ 25 * (n : Int)) := by
          omega
        rw [if_neg hcase]
    · rw [if_neg hnk]
      have hcase : 42 ≤ d ∧ (d - 42) % 25 = 0 ∧ d - 42 ≤ 25 * (n : Int) := by omega
      rw [if_pos hcase]
  · intro hk
    show stalled d n = _
    unfold stalled
    have hcase : ¬ (42 ≤ d ∧ (d - 42) % 25 = 0 ∧ d - 42 ≤ 25 * (n : Int)) := by
      rintro ⟨h1, h2, _⟩
      exact hk ((d - 42) / 25).toNat (by omega)
    rw [if_neg hcase]
  · intro hb
    have hb1 : (42 ≤ d ∧ (d - 42) % 25 = 0) ∨ -2147483648 ≤ d - 25 * (n : Int) := by
      rcases hb with ⟨k, hk⟩ | hb
      · left
        omega
      · exact Or.inr hb
    obtain ⟨t, ht, _, hidx, hcopy⟩ :=
      steadyRun_stalled (T := T) (v := v) (s.copy v).p d hbad hr n s hoff hc hb1
    exact ⟨t, ht, hidx, by rw [hrun, hidx, hcopy]⟩

/-- C18 on the example tables with 30 left in voice 0: after 1000 iterations the
voice is still at position 0, with 30 - 25000 left. -/
theorem malformed_duration_stalls_witness :
    (exampleBad.copy Voice.v0).d = 30 ∧ ¬ ((0 : Int) < 30 ∧ (25 : Int) ∣ 30) ∧
    ∃ t, steadyRun exampleTables 1000 exampleBad = some t ∧
      t.idx Voice.v0 = exampleBad.idx Voice.v0 ∧
      cursorRunZ (voiceTable exampleTables exampleBad Voice.v0) 1000
        (exampleBad.idx Voice.v0, exampleBad.copy Voice.v0) = some (t.idx Voice.v0, t.copy Voice.v0) :=
  ⟨rfl, by decide,
    (malformed_duration_stalls exampleTables exampleBad Voice.v0 30 rfl (by decide) (by decide)
      (fun w hw => by
        cases w
        · exact absurd rfl hw
        · exact voiceSafe_at_done (by decide) rfl rfl
        · exact voiceSafe_at_done (by decide) rfl rfl) 1000).2 (Or.inr (by decide))⟩

end FFTMusic
